import Mathlib

/-!
Verification of the bytecode-to-source mapping and coverage-analysis engine
of the repository (src/brownie/test/coverage.py and
src/brownie/project/compiler.py), as a shallow embedding in Lean.

Modelling conventions, used throughout:

* Python dicts become association lists `List (key × value)`; assignment is
  `updateA` (replace in place, else append, matching insertion-order
  semantics), reads are `lookupA`, and a read of a missing key is the
  exception `KeyError`, modelled as `Except.error "KeyError"`.
* Python exceptions (`KeyError`, `IndexError`, `ValueError`,
  `StopIteration`, `ZeroDivisionError`) make functions return
  `Except String α`; an uncaught exception aborts the whole computation,
  exactly as in Python.
* Python `False` stored in the `jump` slots is `0`: the code only ever
  tests truthiness (`if item['jump']`) and equality with a pc
  (`i['jump'] == pc`), and in Python `False == 0`, so the encoding agrees
  with the source on every operation performed on the slot.
* The sets the coverage code keeps (`set()` objects, and lists that are
  immediately deduplicated through `list(set(...))`) become `Finset ℕ`;
  every operation the source performs on them is content-level
  (membership, add, discard, union, comprehension filters), so contents
  are preserved exactly.
* Strings are manipulated through their character lists (`String.data`),
  mirroring Python's `split`, slicing and `in` operator.
-/

set_option synthInstance.maxSize 2048

deriving instance DecidableEq for Except

/-- Association-list lookup: Python `d[k]` when the key is present,
`None`/`KeyError` handling is done at call sites. -/
def lookupA {α β : Type} [DecidableEq α] : List (α × β) → α → Option β
  | [], _ => none
  | (k, v) :: t, a => if k = a then some v else lookupA t a

/-- Association-list write: Python `d[k] = v` (replace in place if the key
exists, else append, preserving dict insertion order). -/
def updateA {α β : Type} [DecidableEq α] : List (α × β) → α → β → List (α × β)
  | [], a, b => [(a, b)]
  | (k, v) :: t, a, b => if k = a then (k, b) :: t else (k, v) :: updateA t a b

/-- Python `d.setdefault(k, dflt)`: returns the value at `k` (inserting
`dflt` first when absent) together with the updated dict. -/
def setdefaultA {α β : Type} [DecidableEq α] (l : List (α × β)) (a : α) (d : β) :
    β × List (α × β) :=
  match lookupA l a with
  | some v => (v, l)
  | none => (d, l ++ [(a, d)])

/-- Python `d[k]` on an `Option`-valued read: missing key raises `KeyError`. -/
def keyGet {α : Type} : Option α → Except String α
  | some a => Except.ok a
  | none => Except.error "KeyError"

/-- Python sequence indexing: out-of-range raises `IndexError`. -/
def idxGet {α : Type} : Option α → Except String α
  | some a => Except.ok a
  | none => Except.error "IndexError"

/-- Python `list.pop()` from the consumption end of the reversed opcode
stack: popping an empty list raises `IndexError`. -/
def popL {α : Type} : List α → Except String (α × List α)
  | [] => Except.error "IndexError"
  | a :: t => Except.ok (a, t)

/-- Python `str.split(sep)` for a one-character separator, on the
character list: `"".split(c)` is `[""]`. -/
def splitCh (sep : Char) : List Char → List (List Char)
  | [] => [[]]
  | c :: t =>
    match splitCh sep t with
    | [] => [[]]
    | h :: r => if c = sep then [] :: h :: r else (c :: h) :: r

/-- Value of a nonempty all-digit character list, else `none`. -/
def digitsVal (cs : List Char) : Option ℕ :=
  if cs ≠ [] ∧ cs.all Char.isDigit then
    some (cs.foldl (fun n c => 10 * n + (c.toNat - 48)) 0)
  else none

/-- Python `int(s)`: optional surrounding whitespace, optional sign, then
decimal digits; anything else raises `ValueError` (signalled by `none`),
in particular `int("-")` and `int("")` fail. -/
def parseIntL (cs : List Char) : Option ℤ :=
  let t := ((cs.dropWhile Char.isWhitespace).reverse.dropWhile Char.isWhitespace).reverse
  match t with
  | '-' :: r => (digitsVal r).map (fun n => -(n : ℤ))
  | '+' :: r => (digitsVal r).map (fun n => (n : ℤ))
  | r => (digitsVal r).map (fun n => (n : ℤ))

/-- Python `int(x)` lifted to `Except`: failure raises `ValueError`. -/
def valInt : Option ℤ → Except String ℤ
  | some z => Except.ok z
  | none => Except.error "ValueError"

/-- One fully resolved source-map entry, the `last` list of
`_generate_pcMap` (src/brownie/project/compiler.py): the first three
fields are ints, the fourth is the jump string; `jump = none` models a
`last` list that never had a fourth element (accessing it raises
`IndexError`). -/
structure SMEntry where
  start : ℤ
  len : ℤ
  file : ℤ
  jump : Option String
deriving DecidableEq

/-- First source-map chunk: `last = source_map.split(';')[0].split(':')`
followed by `last[i] = int(last[i]) for i in range(3)`
(compiler.py, `_generate_pcMap`). -/
def smFirst (chunk : List Char) : Except String SMEntry := do
  let ps := splitCh ':' chunk
  let p0 ← idxGet (ps.get? 0)
  let s ← valInt (parseIntL p0)
  let p1 ← idxGet (ps.get? 1)
  let l ← valInt (parseIntL p1)
  let p2 ← idxGet (ps.get? 2)
  let f ← valInt (parseIntL p2)
  Except.ok ⟨s, l, f, (ps.get? 3).map (fun cs => String.mk cs)⟩

/-- Resolution of one subsequent source-map chunk against the previous
entry (compiler.py, `_generate_pcMap`): an empty chunk keeps `last`
unchanged; otherwise `value = (value+":::").split(':')[:4]`, the first
three fields go through `int(value[i] or last[i])` (so only an *empty*
field inherits; a non-empty unparsable field such as `-` raises
`ValueError`), and `value[3] = value[3] or last[3]`. -/
def smStep (last : SMEntry) (v : List Char) : Except String SMEntry := do
  if v = [] then
    Except.ok last
  else
    let ps := (splitCh ':' (v ++ [':', ':', ':'])).take 4
    let p0 ← idxGet (ps.get? 0)
    let s ← if p0 = [] then Except.ok last.start else valInt (parseIntL p0)
    let p1 ← idxGet (ps.get? 1)
    let l ← if p1 = [] then Except.ok last.len else valInt (parseIntL p1)
    let p2 ← idxGet (ps.get? 2)
    let f ← if p2 = [] then Except.ok last.file else valInt (parseIntL p2)
    let p3 ← idxGet (ps.get? 3)
    let j ← (match p3, last.jump with
      | [], none => Except.error "IndexError"
      | [], some js => Except.ok (some js)
      | cs, _ => Except.ok (some (String.mk cs)))
    Except.ok ⟨s, l, f, j⟩

/-- The source-map resolution steps of `_generate_pcMap`, isolated: decode
a whole source-map string into the sequence of fully resolved entries
(one per instruction position), with the delta/inheritance rule applied
exactly as the code applies it. -/
def decodeSourceMap (sm : String) : Except String (List SMEntry) := do
  match splitCh ';' sm.data with
  | [] => Except.error "IndexError"
  | c0 :: rest => do
    let e0 ← smFirst c0
    let p ← rest.foldlM
      (fun (p : List SMEntry × SMEntry) v => do
        let e ← smStep p.2 v
        Except.ok (p.1 ++ [e], e))
      ([e0], e0)
    Except.ok p.1

/-- An AST node as `_generate_pcMap` uses it through `id_map`: its parent
source path, and `child_by_offset(offset).full_name` as a partial map
(`none` models the caught `KeyError`). -/
structure NodeI where
  path : String
  childFn : ℤ × ℤ → Option String

/-- One entry of the generated pcMap (`_generate_pcMap`,
src/brownie/project/compiler.py): optional fields model dict keys that
the code only sometimes writes. -/
structure PEntry where
  op : String
  offset : Option (ℤ × ℤ)
  path : Option String
  value : Option String
  jump : Option String
  fn : Option String
deriving DecidableEq

/-- Loop state of `_generate_pcMap`: current pc, the running `last`
source-map entry, the op written at the current pc (read back as
`pcMap[pc]['op']`), the remaining opcode stack, the accumulated pcMap and
the accumulated `paths` set (kept as a deduplicated list). -/
structure GState where
  pc : ℤ
  last : SMEntry
  curOp : String
  ops : List String
  acc : List (ℤ × PEntry)
  paths : List String

/-- One iteration of the main loop of `_generate_pcMap` (compiler.py),
processing one source-map chunk: advance pc past a PUSH operand
(`int(op[4:])`, which raises `ValueError` when unparsable), resolve the
chunk, pop the opcode, record the jump field when it is not `"-"`, peek
at the next stack element (`opcodes[-1]`, `IndexError` on empty) to pop a
`0x` value, then attach path / offset / fn according to the `-1`
sentinels. -/
def pcChunkRest (idMap : ℤ → Option NodeI) (pc : ℤ) (last0 : SMEntry)
    (ops0 : List String) (acc : List (ℤ × PEntry)) (paths0 : List String)
    (v : List Char) : Except String GState := do
  let last ← smStep last0 v
  let p ← popL ops0
  let op := p.1
  let ops := p.2
  let jump ← (match last.jump with
    | none => Except.error "IndexError"
    | some js => Except.ok (if js ≠ "-" then some js else none))
  let nxt ← idxGet ops.head?
  let q ← (if nxt.data.take 2 = "0x".data
    then (popL ops).map (fun r => (some r.1, r.2))
    else Except.ok ((none : Option String), ops))
  let value := q.1
  let ops := q.2
  if last.file = -1 then
    Except.ok ⟨pc, last, op, ops, updateA acc pc ⟨op, none, none, value, jump, none⟩, paths0⟩
  else do
    let node ← keyGet (idMap last.file)
    let paths := if node.path ∈ paths0 then paths0 else paths0 ++ [node.path]
    if last.start = -1 then
      Except.ok ⟨pc, last, op, ops,
        updateA acc pc ⟨op, none, some node.path, value, jump, none⟩, paths⟩
    else
      Except.ok ⟨pc, last, op, ops,
        updateA acc pc
          ⟨op, some (last.start, last.start + last.len), some node.path, value, jump,
            node.childFn (last.start, last.start + last.len)⟩, paths⟩

/-- See `pcChunkRest`: computes the pc advance past a PUSH operand, then
processes the chunk. -/
def pcChunk (idMap : ℤ → Option NodeI) (st : GState) (v : List Char) :
    Except String GState := do
  let w ← (if st.curOp.data.take 4 = "PUSH".data
    then valInt (parseIntL (st.curOp.data.drop 4))
    else Except.ok 0)
  pcChunkRest idMap (st.pc + w + 1) st.last st.ops st.acc st.paths v

/-- `_generate_pcMap` for one contract (compiler.py): consumes the
deployed source map and the opcode list (already split on spaces and
taken in emission order; the Python code walks the same sequence by
popping a reversed copy) and produces the pc-keyed map. The entry at pc 0
is built from the first source-map chunk, popping the first opcode and,
unconditionally, its value; each further chunk is handled by `pcChunk`. -/
def generate_pcMap (idMap : ℤ → Option NodeI) (sourceMap : String)
    (opcodes : List String) : Except String (List (ℤ × PEntry)) := do
  match splitCh ';' sourceMap.data with
  | [] => Except.error "IndexError"
  | c0 :: rest => do
    let last0 ← smFirst c0
    let p ← popL opcodes
    let node0 ← keyGet (idMap last0.file)
    let q ← popL p.2
    let e0 : PEntry :=
      ⟨p.1, some (last0.start, last0.start + last0.len), some node0.path, some q.1, none, none⟩
    let stF ← rest.foldlM (pcChunk idMap) ⟨0, last0, p.1, q.2, [(0, e0)], []⟩
    Except.ok stF.acc

/-- Operand byte width by which `_generate_pcMap` advances the pc after an
instruction: `int(op[4:])` for a PUSH-family opcode, 0 otherwise. -/
def opWidth (op : String) : ℤ :=
  if op.data.take 4 = "PUSH".data then (parseIntL (op.data.drop 4)).getD 0 else 0

/-- `opWidth` of a pcMap entry's opcode. -/
def entryWidth (e : PEntry) : ℤ := opWidth e.op

/-- Python string slicing `s[a:b]` with the usual index normalisation
(negative indexes count from the end, everything is clamped). -/
def normIdx (n : ℕ) (x : ℤ) : ℕ :=
  if x < 0 then ((n : ℤ) + x).toNat else min x.toNat n

/-- Python `s[a:b]` on strings. -/
def pySlice (s : String) (a b : ℤ) : String :=
  let n := s.data.length
  String.mk (((s.data).drop (normIdx n a)).take (normIdx n b - normIdx n a))

/-- Python `needle in hay` for strings, on character lists. -/
def containsSub (needle : List Char) : List Char → Bool
  | [] => needle.isPrefixOf []
  | c :: t => needle.isPrefixOf (c :: t) || containsSub needle t

/-- A coverage-map line item as `_isolate_lines` builds it (`_base` plus
the `jump` update): `jump = 0` models Python `False`, otherwise it is the
pc of the controlling JUMPI. -/
structure LineItem where
  path : String
  start : ℤ
  stop : ℤ
  pc : Finset ℤ
  jump : ℤ
deriving DecidableEq

/-- `_get_source(op)` (compiler.py): slice the source text of the entry's
path by its offset; reading a missing `offset` key raises `KeyError`. The
global `Sources` singleton (whose class is outside src/) is modelled as a
total map from path to source text. -/
def getSource (srcs : String → String) (e : PEntry) : Except String String := do
  let p ← keyGet e.path
  let off ← keyGet e.offset
  Except.ok (pySlice (srcs p) off.1 off.2)

/-- The backward anchor scan of `_isolate_lines` (compiler.py):
`next(x for x in range(i - 4, 0, -1) if x in pcMap and 'path' in pcMap[x]
and pcMap[x]['op'] != "JUMPDEST" and pcMap[x]['offset'] != op['offset'])`.
The argument is the start of the scan, `i - 4` (clamped at 0); the scan
walks down to pc 1 inclusive. An entry that has a path, is not a
JUMPDEST, but has no `offset` key raises `KeyError` (uncaught in the
source: only `StopIteration` is caught); exhaustion returns `none`. -/
def scanAnchor (pcMap : List (ℤ × PEntry)) (off : ℤ × ℤ) : ℕ → Except String (Option (ℤ × PEntry))
  | 0 => Except.ok none
  | x + 1 =>
    match lookupA pcMap ((x + 1 : ℕ) : ℤ) with
    | none => scanAnchor pcMap off x
    | some e =>
      match e.path with
      | none => scanAnchor pcMap off x
      | some _ =>
        if e.op = "JUMPDEST" then scanAnchor pcMap off x
        else
          match e.offset with
          | none => Except.error "KeyError"
          | some o => if o ≠ off then Except.ok (some (((x + 1 : ℕ) : ℤ), e)) else scanAnchor pcMap off x

/-- Body of the branch phase of `_isolate_lines` for one JUMPI entry
(compiler.py): register the path in `line_map`, skip the branch when the
next instruction is INVALID or the JUMPI's own source text contains
`" public "`, otherwise scan backward from `i - 4` for the anchor and
append a `_base` item (anchor's path/offset, pc set `{anchor}`) tagged
with `jump = i`. -/
def branchStep (srcs : String → String) (pcMap : List (ℤ × PEntry))
    (lm : List (String × List LineItem)) (i : ℤ) (e : PEntry) :
    Except String (List (String × List LineItem)) := do
  let p ← keyGet e.path
  let lm := if (lookupA lm p).isSome then lm else lm ++ [(p, [])]
  let nxtE ← keyGet (lookupA pcMap (i + 1))
  if nxtE.op = "INVALID" then Except.ok lm else do
  let src ← getSource srcs e
  if containsSub " public ".data src.data then
    Except.ok lm
  else do
    let r ← scanAnchor pcMap (← keyGet e.offset) (i - 4).toNat
    match r with
    | none => Except.ok lm
    | some a => do
      let aoff ← keyGet a.2.offset
      let ap ← keyGet a.2.path
      let cur ← keyGet (lookupA lm p)
      Except.ok (updateA lm p (cur ++ [⟨ap, aoff.1, aoff.2, {a.1}, i⟩]))

/-- The branch phase of `_isolate_lines` (compiler.py): iterate, in pcMap
order, over every entry that has a path and whose opcode is JUMPI, and
apply `branchStep`. -/
def isolate_lines_branches (srcs : String → String) (pcMap : List (ℤ × PEntry)) :
    Except String (List (String × List LineItem)) :=
  (pcMap.filter (fun pr => pr.2.path.isSome && pr.2.op == "JUMPI")).foldlM
    (fun lm pr => branchStep srcs pcMap lm pr.1 pr.2) []

/-- One step of a transaction trace as `analyze_coverage`
(src/brownie/test/coverage.py) reads it: `t['pc']`, `t['op']`,
`t['contractName']` and `t['source']['filename']`; a Python `None`/empty
name or path is the empty string (the code only tests truthiness). -/
structure TraceStep where
  pc : ℤ
  op : String
  contractName : String
  filename : String
deriving DecidableEq

/-- A transaction from `history`: `tx.receiver` truthiness and `tx.trace`. -/
structure Txn where
  receiver : Bool
  trace : List TraceStep
deriving DecidableEq

/-- One coverage-map item (`build[name]['coverageMap'][path][fn][idx]`):
`jump` is 0 for Python `False`, otherwise the pc of the JUMPI. -/
structure MapItem where
  jump : ℤ
  offset : ℤ × ℤ
deriving DecidableEq

/-- The part of a pcMap entry that `analyze_coverage` reads: the `'fn'`
key (absent ⇒ `KeyError` on access; present-but-falsy is the empty
string), and the optional `'coverageIndex'` (tested with `in` before
access). -/
structure APcEntry where
  fn : Option String
  coverageIndex : Option ℕ
deriving DecidableEq

/-- Per-contract data read from the `build` singleton. -/
structure BuildRec where
  pcMap : List (ℤ × APcEntry)
  coverageMap : List (String × List (String × List MapItem))
deriving DecidableEq

/-- A per-function evaluation record while traces are processed:
`{'tx': set(), 'true': set(), 'false': set()}`. -/
structure FnRec where
  tx : Finset ℕ
  ttrue : Finset ℕ
  tfalse : Finset ℕ
deriving DecidableEq

/-- The coverage map type: contract-local `path → fn → [MapItem]`. -/
abbrev CovMapT := List (String × List (String × List MapItem))

/-- `coverage_eval` while traces are processed. -/
abbrev CovEvalW := List (String × List (String × List (String × FnRec)))

/-- `tx_eval`: the per-transaction hit sets. -/
abbrev TxEvalT := List (String × List (String × List (String × Finset ℕ)))

/-- The mutable state of `analyze_coverage`'s trace loop: the `pcMap`,
`coverage_map` caches and the global `coverage_eval`. -/
structure AState where
  pcMapC : List (String × List (ℤ × APcEntry))
  covMapC : List (String × List (String × List (String × List MapItem)))
  covEval : List (String × List (String × List (String × FnRec)))
deriving DecidableEq

/-- The body of one trace step of `analyze_coverage` (coverage.py),
after the caches are resolved. `rest` is the remainder of the trace,
used for the `tx.trace[i+1]['pc']` lookahead of the JUMPI case (raising
`IndexError` when the JUMPI is the last step). Mutations of the nested
dicts are modelled by rebuilding the updated association lists; an
uncaught exception aborts the whole analysis, so net-effect equality
with the Python code holds on both the `ok` and the `error` side. -/
def processStepCore (st : AState) (txe : TxEvalT)
    (covMapName : List (String × List (String × List MapItem)))
    (t : TraceStep) (rest : List TraceStep) : Except String (AState × TxEvalT) := do
  let name := t.contractName
  let path := t.filename
  let pm ← keyGet (lookupA st.pcMapC name)
  let e ← keyGet (lookupA pm t.pc)
  let fn ← keyGet e.fn
  if fn = "" then return (st, txe) else
  let covName ← keyGet (lookupA st.covEval name)
  let fnmap0 ← keyGet (lookupA covName path)
  let rc := setdefaultA fnmap0 fn ⟨∅, ∅, ∅⟩
  let r0 := rc.1
  let fnm1 := rc.2
  let txName ← keyGet (lookupA txe name)
  let tfm0 ← keyGet (lookupA txName path)
  let tc := setdefaultA tfm0 fn ∅
  let txSet := tc.1
  let tfm1 := tc.2
  let commit := fun (fnmF : List (String × FnRec)) (tfmF : List (String × Finset ℕ)) =>
    ((⟨st.pcMapC, st.covMapC, updateA st.covEval name (updateA covName path fnmF)⟩ : AState),
      updateA txe name (updateA txName path tfmF))
  if t.op ≠ "JUMPI" then
    match e.coverageIndex with
    | none => return commit fnm1 tfm1
    | some idx => do
      let fmaps ← keyGet (lookupA covMapName path)
      let maps ← keyGet (lookupA fmaps fn)
      let item ← keyGet maps[idx]?
      if item.jump ≠ 0 then
        return commit fnm1 (updateA tfm1 fn (txSet ∪ {idx}))
      else
        return commit (updateA fnm1 fn ⟨r0.tx ∪ {idx}, r0.ttrue, r0.tfalse⟩) tfm1
  else do
    let fmaps ← keyGet (lookupA covMapName path)
    let maps ← keyGet (lookupA fmaps fn)
    let k ← (match maps.findIdx? (fun it => decide (it.jump = t.pc)) with
      | some k => Except.ok k
      | none => Except.error "StopIteration")
    if k ∉ txSet ∨ k ∈ r0.tx then return commit fnm1 tfm1 else do
    let nxt ← (match rest.head? with
      | some n => Except.ok n
      | none => Except.error "IndexError")
    if nxt.pc = t.pc + 1 then
      if k ∉ r0.ttrue then
        return commit (updateA fnm1 fn ⟨r0.tx, r0.ttrue, r0.tfalse ∪ {k}⟩) tfm1
      else
        return commit (updateA fnm1 fn ⟨r0.tx ∪ {k}, r0.ttrue.erase k, r0.tfalse⟩) tfm1
    else
      if k ∉ r0.tfalse then
        return commit (updateA fnm1 fn ⟨r0.tx, r0.ttrue ∪ {k}, r0.tfalse⟩) tfm1
      else
        return commit (updateA fnm1 fn ⟨r0.tx ∪ {k}, r0.ttrue, r0.tfalse.erase k⟩) tfm1

/-- The cache-independent part of one trace step of `analyze_coverage`
(coverage.py): resolve the contract's coverage map, initialise this
transaction's `tx_eval` entry for the contract, then run the step body. -/
def processStepRest (st : AState) (txe : TxEvalT) (t : TraceStep)
    (rest : List TraceStep) : Except String (AState × TxEvalT) := do
  let covMapName ← keyGet (lookupA st.covMapC t.contractName)
  let txe := match lookupA txe t.contractName with
    | some _ => txe
    | none => updateA txe t.contractName (covMapName.map (fun pr => (pr.1, [])))
  processStepCore st txe covMapName t rest

/-- Processing of one trace step by `analyze_coverage` (coverage.py):
skip steps without a contract name or source path, populate the
`pcMap`/`coverage_map`/`coverage_eval` caches on first sight of a
contract (`build[name]` raising `KeyError` when the build data is
missing), then `processStepRest`. -/
def processStep (build : List (String × BuildRec)) (st : AState) (txe : TxEvalT)
    (t : TraceStep) (rest : List TraceStep) : Except String (AState × TxEvalT) := do
  if t.contractName = "" ∨ t.filename = "" then return (st, txe) else
  let st ← (match lookupA st.pcMapC t.contractName with
    | some _ => Except.ok st
    | none =>
      match lookupA build t.contractName with
      | none => Except.error "KeyError"
      | some b => Except.ok
          ⟨updateA st.pcMapC t.contractName b.pcMap,
            updateA st.covMapC t.contractName b.coverageMap,
            updateA st.covEval t.contractName (b.coverageMap.map (fun pr => (pr.1, [])))⟩)
  processStepRest st txe t rest

/-- Fold `processStep` over a trace, handing each step its tail for the
lookahead. -/
def processTrace (build : List (String × BuildRec)) :
    AState → TxEvalT → List TraceStep → Except String (AState × TxEvalT)
  | st, txe, [] => Except.ok (st, txe)
  | st, txe, t :: rest => do
    let p ← processStep build st txe t rest
    processTrace build p.1 p.2 rest

/-- One `history` transaction: skipped when `tx.receiver` is falsy,
otherwise processed with a fresh `tx_eval = {}`. -/
def processTx (build : List (String × BuildRec)) (st : AState) (tx : Txn) :
    Except String AState := do
  if !tx.receiver then return st else
  let p ← processTrace build st [] tx.trace
  return p.1

/-- `total` of the percentage loop of `analyze_coverage` (coverage.py):
`len([i for i in maps if i['jump']])*2 + len([i for i in maps if not i['jump']])`. -/
def fnTotal (maps : List MapItem) : ℕ :=
  (maps.filter (fun i => decide (i.jump ≠ 0))).length * 2 +
    (maps.filter (fun i => decide (i.jump = 0))).length

/-- `count` of the percentage loop of `analyze_coverage` (coverage.py):
2 (branch) or 1 (statement) per index in `tx`, plus 1 per branch index
found in `true` or `false`. -/
def fnCount (maps : List MapItem) (r : FnRec) : ℕ :=
  (maps.enum.map (fun p =>
    if p.1 ∈ r.tx then (if p.2.jump ≠ 0 then 2 else 1)
    else if p.2.jump ≠ 0 ∧ (p.1 ∈ r.ttrue ∨ p.1 ∈ r.tfalse) then 1
    else 0)).sum

/-- Python's `round(a/b)` to the nearest integer, half to even
(banker's rounding), computed on the exact fraction `a/b`: with
`q = a / b` and `r = a % b`, the fractional part `r/b` is compared with
`1/2` by comparing `2*r` with `b`. Python rounds the IEEE double; the
exact-fraction model agrees except at representation-induced ties, which
cannot occur for the small totals coverage maps produce. -/
def halfEvenDiv (a b : ℕ) : ℕ :=
  let q := a / b
  let r := a % b
  if 2 * r < b then q
  else if b < 2 * r then q + 1
  else if q % 2 = 0 then q else q + 1

/-- Python `round(count/total, 4)`: round `10000 * count / total` half to
even and divide back by 10000. -/
def pyRound4Frac (count total : ℕ) : ℚ := mkRat (halfEvenDiv (10000 * count) total) 10000

/-- `round(count / total, 4)` for one function (coverage.py): an empty
coverage map would divide by zero, exactly as the Python code would. -/
def evalPctE (maps : List MapItem) (r : FnRec) : Except String ℚ :=
  if fnTotal maps = 0 then Except.error "ZeroDivisionError"
  else Except.ok (pyRound4Frac (fnCount maps r) (fnTotal maps))

/-- One function record of the returned evaluation: `pct` is absent
(`none`) for records that were touched during tracing but never reached
by the percentage loop; `sets` is absent for the bare `{'pct': 0}` and
`{'pct': 1}` records. The `sets` triple is `(tx, true, false)`. -/
structure OutRec where
  pct : Option ℚ
  sets : Option (Finset ℕ × Finset ℕ × Finset ℕ)
deriving DecidableEq

/-- The evaluation type returned by `analyze_coverage` and consumed by
`merge_coverage`: contract → path → function → record. -/
abbrev CovOut := List (String × List (String × List (String × OutRec)))

/-- The `(contract, source, fn_name, maps)` quadruple list the percentage
loop of `analyze_coverage` iterates over. -/
def covTriples (covMapC : List (String × List (String × List (String × List MapItem)))) :
    List (String × String × String × List MapItem) :=
  covMapC.flatMap (fun pr => pr.2.flatMap (fun qr => qr.2.map (fun fr => (pr.1, qr.1, fr.1, fr.2))))

/-- One iteration of the percentage loop of `analyze_coverage`
(coverage.py): a function never reached becomes `{'pct': 0}`; otherwise
its percentage is computed and, when it equals 1, the record is replaced
by the bare `{'pct': 1}`. -/
def finalizeStep (out : CovOut) (tr : String × String × String × List MapItem) :
    Except String CovOut := do
  let covC ← keyGet (lookupA out tr.1)
  let fnmap ← keyGet (lookupA covC tr.2.1)
  match lookupA fnmap tr.2.2.1 with
  | none =>
    Except.ok (updateA out tr.1 (updateA covC tr.2.1 (updateA fnmap tr.2.2.1 ⟨some 0, none⟩)))
  | some r => do
    let s ← keyGet r.sets
    let pct ← evalPctE tr.2.2.2 ⟨s.1, s.2.1, s.2.2⟩
    let newr : OutRec := if pct = 1 then ⟨some 1, none⟩ else ⟨some pct, some s⟩
    Except.ok (updateA out tr.1 (updateA covC tr.2.1 (updateA fnmap tr.2.2.1 newr)))

/-- `analyze_coverage(history)` (src/brownie/test/coverage.py): process
every transaction trace, then run the percentage loop over the coverage
map of every contract seen. The `build` singleton (whose class is not in
src/) is passed explicitly as the contract-name-keyed data it serves. -/
def analyze_coverage (build : List (String × BuildRec)) (history : List Txn) :
    Except String CovOut := do
  let st ← history.foldlM (processTx build) ⟨[], [], []⟩
  let out0 : CovOut := st.covEval.map (fun pr =>
    (pr.1, pr.2.map (fun qr =>
      (qr.1, qr.2.map (fun fr =>
        (fr.1, (⟨none, some (fr.2.tx, fr.2.ttrue, fr.2.tfalse)⟩ : OutRec)))))))
  (covTriples st.covMapC).foldlM finalizeStep out0

/-- The per-function merge step of `merge_coverage` (coverage.py, the
body of its inner loop): `f` is the accumulated record, `c` the incoming
one. Guards in source order: skip when `c['pct']` is falsy or the
records are equal; promote to bare `{'pct': 1}` when either side is
fully covered; otherwise union the three sets, promoting any index that
appears in both directional unions into `tx`. The accumulated `pct` is
left untouched. -/
def mergeFnRec (f c : OutRec) : Except String OutRec := do
  let cp ← keyGet c.pct
  if cp = 0 ∨ f = c then return f else
  let fp ← keyGet f.pct
  if fp = 1 ∨ cp = 1 then return ⟨some 1, none⟩ else
  let sf ← keyGet f.sets
  let sc ← keyGet c.sets
  let tt := sf.2.1 ∪ sc.2.1
  let ff := sf.2.2 ∪ sc.2.2
  let xx := sf.1 ∪ sc.1 ∪ (tt ∩ ff)
  return ⟨f.pct, some (xx, tt \ xx, ff \ xx)⟩

/-- The `(source, fn_name, record)` triples of one incoming contract's
data, in iteration order (coverage.py, the list comprehension of
`merge_coverage`). -/
def srcFnTriples (data : List (String × List (String × OutRec))) :
    List (String × String × OutRec) :=
  data.flatMap (fun pr => pr.2.map (fun fr => (pr.1, fr.1, fr.2)))

/-- Merging one incoming contract into the accumulated evaluation
(coverage.py, the body of `for contract_name in list(coverage)`): a
contract not yet present is copied wholesale; otherwise every incoming
function is merged through `mergeFnRec`, reading
`merged_eval[contract_name][source][fn_name]` (KeyError when the
accumulated side lacks the source or the function). -/
def mergeContractInto (merged : CovOut) (name : String)
    (data : List (String × List (String × OutRec))) : Except String CovOut :=
  match lookupA merged name with
  | none => Except.ok (updateA merged name data)
  | some _ =>
    (srcFnTriples data).foldlM
      (fun m tr => do
        let mdata ← keyGet (lookupA m name)
        let fnmap ← keyGet (lookupA mdata tr.1)
        let f ← keyGet (lookupA fnmap tr.2.1)
        let r ← mergeFnRec f tr.2.2
        Except.ok (updateA m name (updateA mdata tr.1 (updateA fnmap tr.2.1 r))))
      merged

/-- `merge_coverage(coverage_files)` (src/brownie/test/coverage.py): fold
the parsed evaluations into one. File I/O and JSON parsing are outside
the algorithm: its input is modelled as the list of already-loaded
`['coverage']` dicts (files that do not exist are skipped before this
point and contribute nothing). -/
def merge_coverage (evals : List CovOut) : Except String CovOut :=
  evals.foldlM
    (fun merged ev => ev.foldlM (fun m pr => mergeContractInto m pr.1 pr.2) merged)
    []

/-- The values of an association list. -/
def fmRecsOf {γ : Type} (fm : List (String × γ)) : List γ := fm.map (fun fr => fr.2)

/-- The function-level values of a path-keyed map of function maps. -/
def smRecsOf {γ : Type} (sm : List (String × List (String × γ))) : List γ :=
  sm.flatMap (fun qr => fmRecsOf qr.2)

/-- The function-level values of a contract/path/function nested map. -/
def recsOf {γ : Type} (ev : List (String × List (String × List (String × γ)))) : List γ :=
  ev.flatMap (fun pr => smRecsOf pr.2)

/-- All function records of an evaluation, across contracts and paths. -/
def outRecs (ev : CovOut) : List OutRec := recsOf ev

/-- All working records of `coverage_eval` during trace processing. -/
def wRecs (ev : List (String × List (String × List (String × FnRec)))) : List FnRec :=
  recsOf ev

/-- All records of a list of evaluations. -/
def evalsRecs (evals : List CovOut) : List OutRec := evals.flatMap outRecs

/-- The pure set-algebra core of the merge step: union the `tx`, `true`
and `false` contents, promote indices appearing in both directional
unions into `tx`, and remove promoted indices from both. -/
def mergeSets (a b : Finset ℕ × Finset ℕ × Finset ℕ) : Finset ℕ × Finset ℕ × Finset ℕ :=
  let tt := a.2.1 ∪ b.2.1
  let ff := a.2.2 ∪ b.2.2
  let xx := a.1 ∪ b.1 ∪ (tt ∩ ff)
  (xx, tt \ xx, ff \ xx)

/-- The set contents carried by a record; a bare record carries empty
contents. -/
def recContents (r : OutRec) : Finset ℕ × Finset ℕ × Finset ℕ :=
  r.sets.getD (∅, ∅, ∅)

/-- Well-formedness of a record entering the merge: either the bare
fully-covered record `{'pct': 1}`, or a record carrying its three sets,
with a percentage that is neither 0 nor 1 and pairwise disjoint sets —
the shape `analyze_coverage` produces for partially covered functions. -/
def recWF1 (r : OutRec) : Prop :=
  r = ⟨some 1, none⟩ ∨
    ∃ p s, r.pct = some p ∧ p ≠ 0 ∧ p ≠ 1 ∧ r.sets = some s ∧
      s.1 ∩ s.2.1 = ∅ ∧ s.1 ∩ s.2.2 = ∅ ∧ s.2.1 ∩ s.2.2 = ∅

/-- A record that is bare whenever it records full coverage. -/
def bareAtOne (r : OutRec) : Prop := r.pct = some 1 → r.sets = none

/-- Modelled from the spec: the weight of one coverage unit under the
claimed weighting rule — branch units weight 2, statement units
weight 1. -/
def specWeight (item : MapItem) : ℕ := if item.jump ≠ 0 then 2 else 1

/-- Modelled from the spec: total weight of a function's coverage map
under the claimed weighting rule. -/
def specTotal (maps : List MapItem) : ℕ := (maps.map specWeight).sum

/-- Modelled from the spec: the executed weight under the claimed rule —
2 for a branch with both directions observed (index in the hit set), 1
for a branch with exactly one direction taken, 1 for each statement
hit. -/
def specCount (maps : List MapItem) (r : FnRec) : ℕ :=
  (maps.enum.map (fun p =>
    if p.2.jump ≠ 0 then
      (if p.1 ∈ r.tx then 2
       else if (decide (p.1 ∈ r.ttrue)) ≠ (decide (p.1 ∈ r.tfalse)) then 1
       else 0)
    else (if p.1 ∈ r.tx then 1 else 0))).sum

/-- `merged[contract][source][fn]` as a partial read. -/
def lookup3 (m : CovOut) (n s f : String) : Option OutRec :=
  (lookupA m n).bind (fun d => (lookupA d s).bind (fun fm => lookupA fm f))

/-- Witness `id_map` for `generate_pcMap`: one source file with id 0. -/
def wIdm : ℤ → Option NodeI :=
  fun i => if i = 0 then some ⟨"a.sol", fun _ => none⟩ else none

/-- Witness opcode list: two PUSH1 instructions with values, a STOP, and
the empty final element produced by splitting solc's space-terminated
opcode string. -/
def wOps : List String := ["PUSH1", "0x80", "PUSH1", "0x40", "STOP", ""]

/-- The pcMap `generate_pcMap wIdm "0:5:0:-;;" wOps` produces. -/
def wM : List (ℤ × PEntry) :=
  [(0, ⟨"PUSH1", some (0, 5), some "a.sol", some "0x80", none, none⟩),
   (2, ⟨"PUSH1", some (0, 5), some "a.sol", some "0x40", none, none⟩),
   (4, ⟨"STOP", some (0, 5), some "a.sol", none, none, none⟩)]

/-- Build data for the unknown-pc counterexample: contract `C` whose
pcMap knows only pc 0. -/
def c3Build : List (String × BuildRec) :=
  [("C", ⟨[(0, ⟨some "f", none⟩)], [("s.sol", [("f", [⟨0, (0, 1)⟩])])]⟩)]

/-- A history whose single trace step references pc 5, absent from the
contract's pcMap. -/
def c3History : List Txn := [⟨true, [⟨5, "STOP", "C", "s.sol"⟩]⟩]

/-- Build data for the branch scenario of the spec: one function with a
single branch unit; pc 0 is its anchor statement (coverage index 0), the
JUMPI sits at pc 2, and pcs 3/5 carry no function. -/
def c9Build : List (String × BuildRec) :=
  [("C", ⟨[(0, ⟨some "f", some 0⟩), (2, ⟨some "f", none⟩),
           (3, ⟨some "", none⟩), (5, ⟨some "", none⟩)],
          [("s.sol", [("f", [⟨2, (0, 5)⟩])])]⟩)]

/-- Two transactions: the first takes the branch (lands on pc 5), the
second falls through (pc 3), so both directions are observed. -/
def c9History : List Txn :=
  [⟨true, [⟨0, "PUSH1", "C", "s.sol"⟩, ⟨2, "JUMPI", "C", "s.sol"⟩,
           ⟨5, "JUMPDEST", "C", "s.sol"⟩]⟩,
   ⟨true, [⟨0, "PUSH1", "C", "s.sol"⟩, ⟨2, "JUMPI", "C", "s.sol"⟩,
           ⟨3, "STOP", "C", "s.sol"⟩]⟩]

/-- An evaluation with one half-covered function (statement 0 hit). -/
def mEvalA : CovOut := [("C", [("s", [("f", ⟨some (mkRat 1 2), some ({0}, ∅, ∅)⟩)])])]

/-- An evaluation of the same function with a different percentage
(statement 1 hit). -/
def mEvalB : CovOut := [("C", [("s", [("f", ⟨some (mkRat 1 4), some ({1}, ∅, ∅)⟩)])])]

/-- The coverage map matching `mEvalA`/`mEvalB`: two statement units. -/
def c2Maps : List MapItem := [⟨0, (0, 1)⟩, ⟨0, (2, 3)⟩]

/-- Evaluations whose contract key sets agree but whose function key sets
differ: `C.s` has only `a` on one side and only `b` on the other. -/
def c7EvalA : CovOut := [("C", [("s", [("a", ⟨some 1, none⟩)])])]

/-- See `c7EvalA`. -/
def c7EvalB : CovOut := [("C", [("s", [("b", ⟨some 1, none⟩)])])]

/-- Sources map for the branch-anchor counterexample: every file is
empty, so no `" public "` marker is present. -/
def c8Src : String → String := fun _ => ""

/-- A pcMap with a JUMPI at pc 10 whose only anchor candidate sits at
pc 1, far outside any 4-instruction window: pcs 7–9 are absent, pc 6
(where the scan starts) shares the JUMPI's source offset, and pcs 2–5
are absent. -/
def c8PcMap : List (ℤ × PEntry) :=
  [(1, ⟨"PUSH1", some (100, 105), some "p", none, none, none⟩),
   (6, ⟨"ADD", some (50, 60), some "p", none, none, none⟩),
   (10, ⟨"JUMPI", some (50, 60), some "p", none, none, none⟩),
   (11, ⟨"STOP", none, none, none, none, none⟩)]

/-- Coverage map for the branch-weighting examples: one branch unit and
two statement units. -/
def c4Maps : List MapItem := [⟨5, (0, 1)⟩, ⟨0, (1, 2)⟩, ⟨0, (2, 3)⟩]

/-- Both branch directions observed (index 0 promoted to `tx`), both
statements hit. -/
def c4RecFull : FnRec := ⟨{0, 1, 2}, ∅, ∅⟩

/-- Only one branch direction taken, both statements hit. -/
def c4RecHalf : FnRec := ⟨{1, 2}, {0}, ∅⟩

/-- The half-covered record of `mEvalA`, on its own. -/
def mRecA : OutRec := ⟨some (mkRat 1 2), some ({0}, ∅, ∅)⟩

/-- The quarter-covered record of `mEvalB`, on its own. -/
def mRecB : OutRec := ⟨some (mkRat 1 4), some ({1}, ∅, ∅)⟩

/-- A third partially-covered record, for associativity instances. -/
def mRecG : OutRec := ⟨some (mkRat 3 4), some ({2}, ∅, ∅)⟩

/-- An accumulated evaluation holding functions `a` and `x` under
contract `C`, source `s`. -/
def c7Merged : CovOut := [("C", [("s", [("a", mRecA), ("x", mRecG)])])]

/-- Incoming contract data touching only function `a`, fully covered. -/
def c7IncOne : List (String × List (String × OutRec)) :=
  [("s", [("a", ⟨some 1, none⟩)])]

/-- The result of merging `c7IncOne` into `c7Merged`: `a` is promoted to
the bare record, `x` — present only on the accumulated side — is kept
unchanged. -/
def c7MergedOne : CovOut :=
  [("C", [("s", [("a", ⟨some 1, none⟩), ("x", mRecG)])])]

theorem lookupA_mem {α β : Type} [DecidableEq α] :
    ∀ {l : List (α × β)} {a : α} {b : β}, lookupA l a = some b → (a, b) ∈ l := by
  intro l
  induction l with
  | nil => intro a b h; simp [lookupA] at h
  | cons hd tl ih =>
    intro a b h
    simp only [lookupA] at h
    split at h
    · rename_i hk
      cases h
      simp [← hk]
    · exact List.mem_cons_of_mem _ (ih h)

theorem mem_updateA {α β : Type} [DecidableEq α] :
    ∀ {l : List (α × β)} {a : α} {b : β} {x : α × β},
      x ∈ updateA l a b → x ∈ l ∨ x = (a, b) := by
  intro l
  induction l with
  | nil => intro a b x h; simp [updateA] at h; simp [h]
  | cons hd tl ih =>
    intro a b x h
    simp only [updateA] at h
    split at h
    · rename_i hk
      rcases List.mem_cons.1 h with h1 | h1
      · exact Or.inr (by simp [h1, ← hk])
      · exact Or.inl (List.mem_cons_of_mem _ h1)
    · rcases List.mem_cons.1 h with h1 | h1
      · exact Or.inl (by simp [h1])
      · rcases ih h1 with h2 | h2
        · exact Or.inl (List.mem_cons_of_mem _ h2)
        · exact Or.inr h2

theorem lookupA_updateA_self {α β : Type} [DecidableEq α] :
    ∀ (l : List (α × β)) (a : α) (b : β), lookupA (updateA l a b) a = some b := by
  intro l
  induction l with
  | nil => intro a b; simp [updateA, lookupA]
  | cons hd tl ih =>
    intro a b
    simp only [updateA]
    split
    · rename_i hk; simp [lookupA, hk]
    · rename_i hk; simp [lookupA, hk, ih]

theorem lookupA_updateA_ne {α β : Type} [DecidableEq α] :
    ∀ (l : List (α × β)) (a : α) (b : β) (a' : α), a' ≠ a →
      lookupA (updateA l a b) a' = lookupA l a' := by
  intro l
  induction l with
  | nil => intro a b a' h; simp only [updateA, lookupA]; rw [if_neg (fun hh => h hh.symm)]
  | cons hd tl ih =>
    intro a b a' h
    simp only [updateA]
    split
    · rename_i hk
      simp only [lookupA]
      split
      · rename_i hk2; exact absurd (hk ▸ hk2) (fun hh => h hh.symm)
      · rfl
    · simp only [lookupA]
      split
      · rfl
      · exact ih a b a' h

theorem updateA_lookup_none {α β : Type} [DecidableEq α] :
    ∀ (l : List (α × β)) (a : α) (b : β), lookupA l a = none →
      updateA l a b = l ++ [(a, b)] := by
  intro l
  induction l with
  | nil => intro a b _; simp [updateA]
  | cons hd tl ih =>
    intro a b h
    simp only [lookupA] at h
    split at h
    · cases h
    · rename_i hk
      simp [updateA, hk, ih _ _ h]

theorem mem_setdefaultA {α β : Type} [DecidableEq α] {l : List (α × β)} {a : α}
    {d : β} {x : α × β} (h : x ∈ (setdefaultA l a d).2) : x ∈ l ∨ x = (a, d) := by
  unfold setdefaultA at h
  split at h
  · exact Or.inl h
  · rcases List.mem_append.1 h with h1 | h1
    · exact Or.inl h1
    · exact Or.inr (by simpa using h1)

theorem setdefaultA_fst {α β : Type} [DecidableEq α] (l : List (α × β)) (a : α)
    (d : β) : (a, (setdefaultA l a d).1) ∈ l ∨ (setdefaultA l a d).1 = d := by
  unfold setdefaultA
  split
  · rename_i v hv; exact Or.inl (lookupA_mem hv)
  · exact Or.inr rfl

theorem except_bind_ok {α β : Type} {x : Except String α} {g : α → Except String β}
    {v : β} (h : x >>= g = Except.ok v) : ∃ w, x = Except.ok w ∧ g w = Except.ok v := by
  cases x with
  | error e => simp [Bind.bind, Except.bind] at h
  | ok w => exact ⟨w, rfl, by simpa [Bind.bind, Except.bind] using h⟩

theorem foldlM_except_inv {σ α : Type} {P : σ → Prop} {step : σ → α → Except String σ}
    (hs : ∀ s a s', P s → step s a = Except.ok s' → P s') :
    ∀ (l : List α) (s s' : σ), P s → l.foldlM step s = Except.ok s' → P s' := by
  intro l
  induction l with
  | nil => intro s s' hp h; simp only [List.foldlM] at h; cases h; exact hp
  | cons a t ih =>
    intro s s' hp h
    simp only [List.foldlM] at h
    obtain ⟨w, hw, hrest⟩ := except_bind_ok h
    exact ih w s' (hs s a w hp hw) hrest

/-- Claim C6, counterexample: decoding the source-map string
`"10:5:0:-;;8:3:-:i"` does not yield the claimed entry sequence — the
third chunk's `-` in the file-id slot is truthy, so the code executes
`int("-")` and the whole decode dies with `ValueError` instead of
inheriting the file id. -/
theorem decode_dash_file_id_cex :
    decodeSourceMap "10:5:0:-;;8:3:-:i" = Except.error "ValueError" := by decide

/-- Claim C6, amended: inheritance happens only for fields left empty.
The empty middle entry inherits all four fields from the first; an empty
third field (`"8:3::i"`) inherits exactly the file id; the claimed
decoding therefore holds for `"10:5:0:-;;8:3::i"` (jump kinds written as
the strings the code keeps: `"-"` is `none`, `"i"` is `into`), whereas a
`-` placed in the file-id slot raises `ValueError`. -/
theorem decode_inheritance_amended :
    decodeSourceMap "10:5:0:-;;8:3::i" =
      Except.ok [⟨10, 5, 0, some "-"⟩, ⟨10, 5, 0, some "-"⟩, ⟨8, 3, 0, some "i"⟩] := by
  decide

/-- Claim C1, counterexample: merging the same two evaluations in the two
orders yields different final `pct` values for function `C/s/f` (the
accumulated side's percentage survives unchanged), so merging is not
commutative. -/
theorem merge_not_commutative_cex :
    (merge_coverage [mEvalA, mEvalB]).map (fun m => (lookup3 m "C" "s" "f").map (fun r => r.pct)) =
        Except.ok (some (some (mkRat 1 2))) ∧
    (merge_coverage [mEvalB, mEvalA]).map (fun m => (lookup3 m "C" "s" "f").map (fun r => r.pct)) =
        Except.ok (some (some (mkRat 1 4))) ∧
    mkRat 1 2 ≠ mkRat 1 4 := by
  refine ⟨by decide, by decide, by decide⟩

/-- Claim C2, counterexample: merging two half-covered evaluations of a
two-statement function unions the hit sets to `{0, 1}` — full coverage,
whose recomputed percentage is 1 — yet the merged record keeps the first
evaluation's `pct = 1/2`; `merge_coverage` never recomputes the
percentage from the unioned sets. -/
theorem merge_pct_not_recomputed_cex :
    (merge_coverage [mEvalA, mEvalB]).map (fun m => (lookup3 m "C" "s" "f").map (fun r =>
        (r.pct, r.sets.map (fun st => evalPctE c2Maps ⟨st.1, st.2.1, st.2.2⟩)))) =
      Except.ok (some (some (mkRat 1 2), some (Except.ok 1))) ∧
    (some (mkRat 1 2) : Option ℚ) ≠ some 1 := by
  refine ⟨by decide, by decide⟩

/-- Claim C3, counterexample: a history whose trace references pc 5,
absent from contract `C`'s pcMap, makes `analyze_coverage` die with the
uncaught `KeyError` from `pcMap[name][pc]` — the step is not skipped and
no evaluation is returned. -/
theorem analyze_unknown_pc_fatal_cex :
    analyze_coverage c3Build c3History = Except.error "KeyError" := by decide

/-- Claim C7, counterexample: merging two evaluations that agree on the
contract key `C` but disagree on the function keys (only `a` on the
accumulated side, only `b` on the incoming side) dies with `KeyError` on
`merged_eval[contract_name][source][fn_name]` instead of treating the
missing side as empty. -/
theorem merge_missing_function_cex :
    merge_coverage [c7EvalA, c7EvalB] = Except.error "KeyError" := by decide

/-- Claim C8, counterexample: the backward scan is not bounded by a
4-instruction window. Here the JUMPI sits at pc 10; no pc in
`{6, 7, 8, 9}` qualifies as an anchor (7–9 are absent and 6 shares the
JUMPI's offset), so under the claim the branch would be skipped — but
the code's scan `range(i-4, 0, -1)` walks all the way down and anchors
the branch at pc 1, nine instructions before the JUMPI. -/
theorem branch_anchor_beyond_window_cex :
    isolate_lines_branches c8Src c8PcMap =
      Except.ok [("p", [⟨"p", 100, 105, {1}, 10⟩])] := by decide

theorem ok_bind {α β : Type} (a : α) (g : α → Except String β) :
    (Except.ok a >>= g) = g a := rfl

theorem error_bind {α β : Type} (e : String) (g : α → Except String β) :
    ((Except.error e : Except String α) >>= g) = Except.error e := rfl

theorem fnTotal_eq_specTotal (maps : List MapItem) : fnTotal maps = specTotal maps := by
  induction maps with
  | nil => rfl
  | cons a t ih =>
    simp only [fnTotal, specTotal] at ih
    by_cases h : a.jump = 0
    · rw [fnTotal, specTotal, List.filter_cons_of_neg (by simp [h]),
        List.filter_cons_of_pos (by simp [h]), List.map_cons, List.sum_cons,
        List.length_cons]
      rw [show specWeight a = 1 from by unfold specWeight; rw [if_neg (not_not_intro h)]]
      omega
    · rw [fnTotal, specTotal, List.filter_cons_of_pos (by simp [h]),
        List.filter_cons_of_neg (by simp [h]), List.map_cons, List.sum_cons,
        List.length_cons]
      rw [show specWeight a = 2 from by unfold specWeight; rw [if_pos h]]
      omega

theorem fnCount_eq_specCount (maps : List MapItem) (r : FnRec)
    (hd : r.ttrue ∩ r.tfalse = ∅) : fnCount maps r = specCount maps r := by
  unfold fnCount specCount
  congr 1
  refine List.map_congr_left (fun p _ => ?_)
  by_cases hj : p.2.jump = 0
  · simp [hj]
  · by_cases htx : p.1 ∈ r.tx
    · simp [hj, htx]
    · have hnb : ¬(p.1 ∈ r.ttrue ∧ p.1 ∈ r.tfalse) := by
        intro hb
        have : p.1 ∈ r.ttrue ∩ r.tfalse := Finset.mem_inter.2 hb
        simp [hd] at this
      by_cases ht : p.1 ∈ r.ttrue
      · have hf : p.1 ∉ r.tfalse := fun hh => hnb ⟨ht, hh⟩
        simp [hj, htx, ht, hf]
      · by_cases hf : p.1 ∈ r.tfalse
        · simp [hj, htx, ht, hf]
        · simp [hj, htx, ht, hf]

/-- Claim C4: for every function, `analyze_coverage` computes
`pct = round(count/total, 4)` where `total` weights branch units 2 and
statement units 1, and `count` adds 2 for a branch whose index is in the
hit set (both directions observed), 1 for a branch with exactly one
direction taken, and 1 per statement hit (the exactly-one reading agrees
with the code's membership test because the directional sets are
disjoint); in particular the 1-branch-2-statement function has
`pct = 1` when fully covered and `pct = 3/4` with one branch direction
missing. -/
theorem analyze_pct_weighting :
    (∀ maps r, fnTotal maps ≠ 0 → r.ttrue ∩ r.tfalse = ∅ →
        evalPctE maps r = Except.ok (pyRound4Frac (specCount maps r) (specTotal maps))) ∧
    evalPctE c4Maps c4RecFull = Except.ok 1 ∧
    evalPctE c4Maps c4RecHalf = Except.ok (mkRat 3 4) := by
  refine ⟨fun maps r h hd => ?_, by decide, by decide⟩
  unfold evalPctE
  rw [if_neg h, fnCount_eq_specCount maps r hd, fnTotal_eq_specTotal]

/-- Witness for `analyze_pct_weighting`: the general conjunct applied to
the one-direction example. -/
theorem analyze_pct_weighting_witness :
    fnTotal c4Maps ≠ 0 ∧ c4RecHalf.ttrue ∩ c4RecHalf.tfalse = ∅ ∧
    evalPctE c4Maps c4RecHalf =
      Except.ok (pyRound4Frac (specCount c4Maps c4RecHalf) (specTotal c4Maps)) :=
  ⟨by decide, by decide, analyze_pct_weighting.1 c4Maps c4RecHalf (by decide) (by decide)⟩

/-- Claim C2, amended: when `merge_coverage` combines two evaluations of
a function neither of which is fully covered, it unions the sets but does
*not* recompute the percentage — the merged record keeps the accumulated
(first) record's `pct` unchanged, which in general differs from the
percentage recomputed from the unioned sets. -/
theorem merge_record_keeps_first_pct (f c : OutRec) (pf cp : ℚ)
    (sf sc : Finset ℕ × Finset ℕ × Finset ℕ)
    (hf : f.pct = some pf) (hc : c.pct = some cp) (hcp : cp ≠ 0)
    (hpf : pf ≠ 1) (hcp1 : cp ≠ 1)
    (hsf : f.sets = some sf) (hsc : c.sets = some sc) :
    (mergeFnRec f c).map (fun r => r.pct) = Except.ok (some pf) := by
  unfold mergeFnRec
  rw [hc]
  simp only [keyGet, ok_bind]
  by_cases hfc : f = c
  · rw [if_pos (Or.inr hfc)]
    simp [Except.map, pure, Except.pure, hf]
  · rw [if_neg (by push_neg; exact ⟨hcp, hfc⟩)]
    rw [hf]
    simp only [keyGet, ok_bind]
    rw [if_neg (by push_neg; exact ⟨hpf, hcp1⟩)]
    rw [hsf, hsc]
    simp [keyGet, ok_bind, Except.map, hf]

/-- Witness for `merge_record_keeps_first_pct`: the two half-covered
records of the counterexample. -/
theorem merge_record_keeps_first_pct_witness :
    (mergeFnRec ⟨some (mkRat 1 2), some ({0}, ∅, ∅)⟩
        ⟨some (mkRat 1 4), some ({1}, ∅, ∅)⟩).map (fun r => r.pct) =
      Except.ok (some (mkRat 1 2)) :=
  merge_record_keeps_first_pct _ _ (mkRat 1 2) (mkRat 1 4) ({0}, ∅, ∅) ({1}, ∅, ∅)
    rfl rfl (by decide) (by decide) (by decide) rfl rfl

/-- Claim C3, amended: `analyze_coverage` does not skip unknown pcs. For
any trace step carrying a contract name and source path, if the step's
pc is absent from the cached pcMap of its contract the whole evaluation
dies with the uncaught `KeyError` of `pcMap[name][pc]` (first conjunct);
what *is* skipped silently is a step whose pcMap entry has a falsy
`'fn'` value, which leaves the evaluation state untouched (second
conjunct). -/
theorem step_unknown_pc_fatal_empty_fn_skips :
    (∀ (build : List (String × BuildRec)) (st : AState) (txe : TxEvalT)
        (t : TraceStep) (rest : List TraceStep) (pm : List (ℤ × APcEntry)),
      t.contractName ≠ "" → t.filename ≠ "" →
      lookupA st.pcMapC t.contractName = some pm →
      lookupA pm t.pc = none →
      processStep build st txe t rest = Except.error "KeyError") ∧
    (∀ (build : List (String × BuildRec)) (st : AState) (txe : TxEvalT)
        (t : TraceStep) (rest : List TraceStep) (pm : List (ℤ × APcEntry))
        (cm : List (String × List (String × List MapItem)))
        (tn : List (String × List (String × Finset ℕ))) (e : APcEntry),
      t.contractName ≠ "" → t.filename ≠ "" →
      lookupA st.pcMapC t.contractName = some pm →
      lookupA st.covMapC t.contractName = some cm →
      lookupA txe t.contractName = some tn →
      lookupA pm t.pc = some e →
      e.fn = some "" →
      processStep build st txe t rest = Except.ok (st, txe)) := by
  constructor
  · intro build st txe t rest pm h1 h2 hpm hpc
    cases hcm : lookupA st.covMapC t.contractName with
    | none => simp [processStep, processStepRest, processStepCore, h1, h2, hpm, hcm,
        keyGet, ok_bind, error_bind]
    | some cm => simp [processStep, processStepRest, processStepCore, h1, h2, hpm, hcm,
        hpc, keyGet, ok_bind, error_bind]
  · intro build st txe t rest pm cm tn e h1 h2 hpm hcm htn hpc hfn
    simp [processStep, processStepRest, processStepCore, h1, h2, hpm, hcm, htn, hpc,
      hfn, keyGet, ok_bind, error_bind, pure, Except.pure]

/-- Witness for `step_unknown_pc_fatal_empty_fn_skips`: both conjuncts
applied to concrete states — a step at pc 5 with only pc 0 mapped dies
with `KeyError`; a step at a pc whose entry has an empty `fn` is
skipped. -/
theorem step_unknown_pc_fatal_empty_fn_skips_witness :
    processStep c3Build
      ⟨[("C", [(0, ⟨some "f", none⟩)])], [("C", [("s.sol", [("f", [⟨0, (0, 1)⟩])])])],
        [("C", [("s.sol", [])])]⟩
      [] ⟨5, "STOP", "C", "s.sol"⟩ [] = Except.error "KeyError" ∧
    processStep c3Build
      ⟨[("C", [(0, ⟨some "", none⟩)])], [("C", [("s.sol", [("f", [⟨0, (0, 1)⟩])])])],
        [("C", [("s.sol", [])])]⟩
      [("C", [("s.sol", [])])] ⟨0, "STOP", "C", "s.sol"⟩ [] =
      Except.ok (⟨[("C", [(0, ⟨some "", none⟩)])], [("C", [("s.sol", [("f", [⟨0, (0, 1)⟩])])])],
        [("C", [("s.sol", [])])]⟩, [("C", [("s.sol", [])])]) := by
  constructor
  · exact step_unknown_pc_fatal_empty_fn_skips.1 c3Build _ _ _ _ [(0, ⟨some "f", none⟩)]
      (by decide) (by decide) (by decide) (by decide)
  · exact step_unknown_pc_fatal_empty_fn_skips.2 c3Build _ _ _ _ [(0, ⟨some "", none⟩)]
      [("s.sol", [("f", [⟨0, (0, 1)⟩])])] [("s.sol", [])] ⟨some "", none⟩
      (by decide) (by decide) (by decide) (by decide) (by decide) (by decide) (by decide)

theorem lookupA_eq_none {α β : Type} [DecidableEq α] :
    ∀ {l : List (α × β)} {a : α}, (∀ p ∈ l, p.1 ≠ a) → lookupA l a = none := by
  intro l
  induction l with
  | nil => intro a _; rfl
  | cons hd tl ih =>
    intro a h
    simp only [lookupA]
    rw [if_neg (h hd (List.mem_cons_self hd tl))]
    exact ih (fun p hp => h p (List.mem_cons_of_mem _ hp))

theorem pcChunkRest_shape (idm : ℤ → Option NodeI) (pc : ℤ) (last0 : SMEntry)
    (ops0 : List String) (acc : List (ℤ × PEntry)) (paths0 : List String)
    (v : List Char) (gs' : GState)
    (h : pcChunkRest idm pc last0 ops0 acc paths0 v = Except.ok gs') :
    gs'.pc = pc ∧
    (∃ e : PEntry, e.op = gs'.curOp ∧ gs'.acc = updateA acc pc e) ∧
    gs'.curOp ∈ ops0 ∧ (∀ x ∈ gs'.ops, x ∈ ops0) := by
  unfold pcChunkRest at h
  cases hs : smStep last0 v with
  | error e => rw [hs] at h; simp [error_bind] at h
  | ok last2 =>
    rw [hs] at h
    simp only [ok_bind] at h
    cases hops : ops0 with
    | nil => rw [hops] at h; simp [popL, error_bind] at h
    | cons op t =>
      rw [hops] at h
      simp only [popL, ok_bind] at h
      cases hj : last2.jump with
      | none => rw [hj] at h; simp [error_bind] at h
      | some js =>
        rw [hj] at h
        simp only [ok_bind] at h
        cases ht : t with
        | nil => rw [ht] at h; simp [idxGet, error_bind] at h
        | cons nxt t2 =>
          rw [ht] at h
          simp only [idxGet, List.head?, ok_bind] at h
          by_cases hx : nxt.data.take 2 = "0x".data
          · rw [if_pos hx] at h
            simp only [popL, Except.map, ok_bind] at h
            by_cases hf : last2.file = -1
            · rw [if_pos hf] at h
              cases h
              refine ⟨rfl, ⟨_, rfl, rfl⟩, List.mem_cons_self _ _, ?_⟩
              intro x hxx
              exact List.mem_cons_of_mem _ (List.mem_cons_of_mem _ hxx)
            · rw [if_neg hf] at h
              cases hn : idm last2.file with
              | none => rw [hn] at h; simp [keyGet, error_bind] at h
              | some node =>
                rw [hn] at h
                simp only [keyGet, ok_bind] at h
                by_cases hst : last2.start = -1
                · rw [if_pos hst] at h
                  cases h
                  refine ⟨rfl, ⟨_, rfl, rfl⟩, List.mem_cons_self _ _, ?_⟩
                  intro x hxx
                  exact List.mem_cons_of_mem _ (List.mem_cons_of_mem _ hxx)
                · rw [if_neg hst] at h
                  cases h
                  refine ⟨rfl, ⟨_, rfl, rfl⟩, List.mem_cons_self _ _, ?_⟩
                  intro x hxx
                  exact List.mem_cons_of_mem _ (List.mem_cons_of_mem _ hxx)
          · rw [if_neg hx] at h
            simp only [ok_bind] at h
            by_cases hf : last2.file = -1
            · rw [if_pos hf] at h
              cases h
              refine ⟨rfl, ⟨_, rfl, rfl⟩, List.mem_cons_self _ _, ?_⟩
              intro x hxx
              exact List.mem_cons_of_mem _ hxx
            · rw [if_neg hf] at h
              cases hn : idm last2.file with
              | none => rw [hn] at h; simp [keyGet, error_bind] at h
              | some node =>
                rw [hn] at h
                simp only [keyGet, ok_bind] at h
                by_cases hst : last2.start = -1
                · rw [if_pos hst] at h
                  cases h
                  refine ⟨rfl, ⟨_, rfl, rfl⟩, List.mem_cons_self _ _, ?_⟩
                  intro x hxx
                  exact List.mem_cons_of_mem _ hxx
                · rw [if_neg hst] at h
                  cases h
                  refine ⟨rfl, ⟨_, rfl, rfl⟩, List.mem_cons_self _ _, ?_⟩
                  intro x hxx
                  exact List.mem_cons_of_mem _ hxx

theorem pcChunk_shape (idm : ℤ → Option NodeI) (gs : GState) (v : List Char)
    (gs' : GState) (h : pcChunk idm gs v = Except.ok gs') :
    gs'.pc = gs.pc + opWidth gs.curOp + 1 ∧
    (∃ e : PEntry, e.op = gs'.curOp ∧ gs'.acc = updateA gs.acc gs'.pc e) ∧
    gs'.curOp ∈ gs.ops ∧ (∀ x ∈ gs'.ops, x ∈ gs.ops) := by
  unfold pcChunk at h
  by_cases hpush : gs.curOp.data.take 4 = "PUSH".data
  · rw [if_pos hpush] at h
    cases hpi : parseIntL (gs.curOp.data.drop 4) with
    | none => rw [hpi] at h; simp [valInt, error_bind] at h
    | some w =>
      rw [hpi] at h
      simp only [valInt, ok_bind] at h
      have hw : opWidth gs.curOp = w := by unfold opWidth; rw [if_pos hpush, hpi]; rfl
      obtain ⟨h1, h2, h3, h4⟩ := pcChunkRest_shape _ _ _ _ _ _ _ _ h
      rw [hw]
      exact ⟨h1, by rw [h1]; exact h2, h3, h4⟩
  · rw [if_neg hpush] at h
    simp only [ok_bind] at h
    have hw : opWidth gs.curOp = 0 := by unfold opWidth; rw [if_neg hpush]
    obtain ⟨h1, h2, h3, h4⟩ := pcChunkRest_shape _ _ _ _ _ _ _ _ h
    rw [hw]
    exact ⟨by omega, by rw [h1]; exact h2, h3, h4⟩

theorem foldlM_except_inv_count {σ α : Type} {P : ℕ → σ → Prop}
    {g : σ → α → Except String σ}
    (hs : ∀ n s a s', P n s → g s a = Except.ok s' → P (n + 1) s') :
    ∀ (l : List α) (s s' : σ) (n : ℕ), P n s → l.foldlM g s = Except.ok s' →
      P (n + l.length) s' := by
  intro l
  induction l with
  | nil => intro s s' n hp h; simp only [List.foldlM] at h; cases h; simpa using hp
  | cons a t ih =>
    intro s s' n hp h
    simp only [List.foldlM] at h
    obtain ⟨w, hw, hrest⟩ := except_bind_ok h
    have := ih w s' (n + 1) (hs n s a w hp hw) hrest
    simpa [Nat.add_comm, Nat.add_assoc, Nat.add_left_comm] using this

/-- Claim C5: whenever `generate_pcMap` succeeds on a valid opcode stream
(one whose PUSH operand widths are nonnegative, as they are for every
real PUSH1..PUSH32), the produced pcMap has exactly one entry per
source-map chunk (i.e. per instruction), its keys start at 0, each
subsequent key is the previous key plus 1 plus the operand width of the
preceding instruction when that instruction is PUSH-family (plus 1
otherwise), and no pc appears twice. -/
theorem generate_pcMap_key_structure (idm : ℤ → Option NodeI) (sm : String)
    (ops : List String) (m : List (ℤ × PEntry))
    (h : generate_pcMap idm sm ops = Except.ok m)
    (hw : ∀ op ∈ ops, 0 ≤ opWidth op) :
    (m.map Prod.fst).head? = some 0 ∧
    List.Chain' (fun a b => b.1 = a.1 + 1 + entryWidth a.2) m ∧
    (m.map Prod.fst).Nodup ∧
    m.length = (splitCh ';' sm.data).length := by
  unfold generate_pcMap at h
  cases hsp : splitCh ';' sm.data with
  | nil => rw [hsp] at h; cases h
  | cons c0 rest =>
    rw [hsp] at h
    simp only [] at h
    cases hf : smFirst c0 with
    | error e => rw [hf] at h; simp [error_bind] at h
    | ok last0 =>
      rw [hf] at h
      simp only [ok_bind] at h
      cases hops : ops with
      | nil => rw [hops] at h; simp [popL, error_bind] at h
      | cons op0 t1 =>
        rw [hops] at h
        simp only [popL, ok_bind] at h
        cases hn : idm last0.file with
        | none => rw [hn] at h; simp [keyGet, error_bind] at h
        | some node0 =>
          rw [hn] at h
          simp only [keyGet, ok_bind] at h
          cases ht1 : t1 with
          | nil => rw [ht1] at h; simp [popL, error_bind] at h
          | cons val0 t2 =>
            rw [ht1] at h
            simp only [popL, ok_bind] at h
            obtain ⟨stF, hfold, hm⟩ := except_bind_ok h
            injection hm with hm
            have hinv := foldlM_except_inv_count
              (P := fun n gs =>
                (∃ pre pl, gs.acc = pre ++ [pl] ∧ pl.1 = gs.pc ∧ pl.2.op = gs.curOp) ∧
                (gs.acc.map Prod.fst).head? = some 0 ∧
                List.Chain' (fun a b : ℤ × PEntry => b.1 = a.1 + 1 + entryWidth a.2) gs.acc ∧
                List.Chain' (· < ·) (gs.acc.map Prod.fst) ∧
                (∀ p ∈ gs.acc, p.1 ≤ gs.pc) ∧
                (∀ p ∈ gs.acc, p.2.op ∈ ops) ∧
                (∀ x ∈ gs.ops, x ∈ ops) ∧
                gs.acc.length = n + 1)
              (g := pcChunk idm)
              ?_ rest _ stF 0 ?_ hfold
            · obtain ⟨_, h2, h3, h4, _, _, _, h8⟩ := hinv
              rw [← hm]
              refine ⟨h2, h3, ?_, ?_⟩
              · exact ((List.chain'_iff_pairwise.mp h4).imp fun hab => ne_of_lt hab)
              · rw [h8]; simp
            · intro n gs v gs' hP hstep
              obtain ⟨⟨pre, pl, hacc, hpl1, hpl2⟩, hhead, hchain, hkchain, hle, hopsin,
                hrem, hlen⟩ := hP
              obtain ⟨hpc', ⟨e', he'op, hacc'⟩, hcur', hrem'⟩ := pcChunk_shape idm gs v gs' hstep
              have hplmem : pl ∈ gs.acc := by
                rw [hacc]; exact List.mem_append_right _ (List.mem_singleton.mpr rfl)
              have hwid : 0 ≤ opWidth gs.curOp := by
                rw [← hpl2]; exact hw _ (hopsin pl hplmem)
              have hgt : ∀ p ∈ gs.acc, p.1 < gs'.pc := by
                intro p hp
                have := hle p hp
                omega
              have hnone : lookupA gs.acc gs'.pc = none :=
                lookupA_eq_none (fun p hp => ne_of_lt (hgt p hp))
              have happ : gs'.acc = gs.acc ++ [(gs'.pc, e')] := by
                rw [hacc']; exact updateA_lookup_none _ _ _ hnone
              have hlast : gs.acc.getLast? = some pl := by
                rw [hacc]; exact List.getLast?_concat _
              refine ⟨⟨gs.acc, (gs'.pc, e'), happ, rfl, he'op⟩, ?_, ?_, ?_, ?_, ?_, ?_, ?_⟩
              · rw [happ, List.map_append]
                cases hml : gs.acc.map Prod.fst with
                | nil => rw [hml] at hhead; cases hhead
                | cons a t => rw [hml] at hhead; simpa using hhead
              · rw [happ]
                refine List.chain'_append.mpr ⟨hchain, List.chain'_singleton _, ?_⟩
                intro x hx y hy
                rw [hlast] at hx
                cases hx
                simp only [List.head?_cons, Option.mem_def, Option.some.injEq] at hy
                subst hy
                rw [hpc', hpl1, entryWidth, hpl2]
                ring
              · rw [happ, List.map_append]
                refine List.chain'_append.mpr ⟨hkchain, List.chain'_singleton _, ?_⟩
                intro x hx y hy
                have hlast2 : (gs.acc.map Prod.fst).getLast? = some pl.1 := by
                  rw [hacc]; simp
                rw [hlast2] at hx
                cases hx
                simp only [List.map_cons, List.map_nil, List.head?_cons, Option.mem_def,
                  Option.some.injEq] at hy
                subst hy
                exact hpl1 ▸ hgt pl hplmem
              · intro p hp
                rw [happ] at hp
                rcases List.mem_append.1 hp with hp1 | hp1
                · exact le_of_lt (hgt p hp1)
                · rcases List.mem_singleton.1 hp1 with rfl; rfl
              · intro p hp
                rw [happ] at hp
                rcases List.mem_append.1 hp with hp1 | hp1
                · exact hopsin p hp1
                · rcases List.mem_singleton.1 hp1 with rfl
                  exact he'op ▸ hrem _ hcur'
              · intro x hx
                exact hrem _ (hrem' x hx)
              · rw [happ, List.length_append, hlen]
                rfl
            · refine ⟨⟨[], (0, ⟨op0, some (last0.start, last0.start + last0.len),
                some node0.path, some val0, none, none⟩), rfl, rfl, rfl⟩, rfl,
                List.chain'_singleton _, List.chain'_singleton _, ?_, ?_, ?_, rfl⟩
              · intro p hp
                rcases List.mem_singleton.1 hp with rfl
                exact le_refl _
              · intro p hp
                rcases List.mem_singleton.1 hp with rfl
                rw [hops]
                exact List.mem_cons_self _ _
              · intro x hx
                rw [hops, ht1]
                exact List.mem_cons_of_mem _ (List.mem_cons_of_mem _ hx)

/-- Witness for `generate_pcMap_key_structure`: the three-instruction
map `wM` produced from `"0:5:0:-;;"`. -/
theorem generate_pcMap_key_structure_witness :
    generate_pcMap wIdm "0:5:0:-;;" wOps = Except.ok wM ∧
    (∀ op ∈ wOps, 0 ≤ opWidth op) ∧
    ((wM.map Prod.fst).head? = some 0 ∧
      List.Chain' (fun a b => b.1 = a.1 + 1 + entryWidth a.2) wM ∧
      (wM.map Prod.fst).Nodup ∧
      wM.length = (splitCh ';' ("0:5:0:-;;").data).length) :=
  ⟨by decide, by decide,
    generate_pcMap_key_structure wIdm "0:5:0:-;;" wOps wM (by decide) (by decide)⟩

/-- Claim C8, amended: characterization of the backward anchor scan.
When the scan launched at `i - 4` (its `start`) returns an anchor
`(x, e)`, then `x` lies in `1 .. start`, its entry has a path, is not a
JUMPDEST and carries an offset different from the JUMPI's, and every pc
strictly between `x` and `start` that has a mapped entry with a path and
a non-JUMPDEST opcode shares the JUMPI's offset — i.e. the anchor is the
*nearest* qualifying pc at distance at least 4 below the JUMPI, with no
window bound, and the branch is dropped only when the whole range is
exhausted. -/
theorem branch_anchor_scan_characterization (pcMap : List (ℤ × PEntry)) (off : ℤ × ℤ) :
    ∀ (start : ℕ) (x : ℤ) (e : PEntry),
      scanAnchor pcMap off start = Except.ok (some (x, e)) →
      1 ≤ x ∧ x ≤ (start : ℤ) ∧ lookupA pcMap x = some e ∧ e.path ≠ none ∧
      e.op ≠ "JUMPDEST" ∧ (∃ o, e.offset = some o ∧ o ≠ off) ∧
      (∀ y : ℕ, x < (y : ℤ) → y ≤ start → ∀ e', lookupA pcMap (y : ℤ) = some e' →
        e'.path ≠ none → e'.op ≠ "JUMPDEST" → e'.offset = some off) := by
  intro start
  induction start with
  | zero => intro x e h; cases h
  | succ n ih =>
    intro x e h
    unfold scanAnchor at h
    cases hl : lookupA pcMap ((n + 1 : ℕ) : ℤ) with
    | none =>
      simp only [hl] at h
      obtain ⟨h1, h2, h3, h4, h5, h6, h7⟩ := ih x e h
      refine ⟨h1, by push_cast; omega, h3, h4, h5, h6, ?_⟩
      intro y hy1 hy2 e' he' hp ho
      by_cases hyn : y = n + 1
      · subst hyn; rw [hl] at he'; cases he'
      · exact h7 y hy1 (by omega) e' he' hp ho
    | some e2 =>
      cases hp2 : e2.path with
      | none =>
        simp only [hl, hp2] at h
        obtain ⟨h1, h2, h3, h4, h5, h6, h7⟩ := ih x e h
        refine ⟨h1, by push_cast; omega, h3, h4, h5, h6, ?_⟩
        intro y hy1 hy2 e' he' hp ho
        by_cases hyn : y = n + 1
        · subst hyn
          rw [hl] at he'
          cases he'
          exact absurd hp2 hp
        · exact h7 y hy1 (by omega) e' he' hp ho
      | some p =>
        simp only [hl, hp2] at h
        by_cases hjd : e2.op = "JUMPDEST"
        · rw [if_pos hjd] at h
          obtain ⟨h1, h2, h3, h4, h5, h6, h7⟩ := ih x e h
          refine ⟨h1, by push_cast; omega, h3, h4, h5, h6, ?_⟩
          intro y hy1 hy2 e' he' hp ho
          by_cases hyn : y = n + 1
          · subst hyn
            rw [hl] at he'
            cases he'
            exact absurd hjd ho
          · exact h7 y hy1 (by omega) e' he' hp ho
        · rw [if_neg hjd] at h
          cases hoff : e2.offset with
          | none => simp only [hoff] at h; cases h
          | some o =>
            simp only [hoff] at h
            by_cases hne : o ≠ off
            · rw [if_pos hne] at h
              cases h
              refine ⟨by push_cast; omega, by push_cast; omega, hl, by simp [hp2],
                hjd, ⟨o, hoff, hne⟩, ?_⟩
              intro y hy1 hy2 e' he' hp ho
              have : (y : ℤ) ≤ ((n + 1 : ℕ) : ℤ) := by push_cast; omega
              omega
            · rw [if_neg hne] at h
              push_neg at hne
              obtain ⟨h1, h2, h3, h4, h5, h6, h7⟩ := ih x e h
              refine ⟨h1, by push_cast; omega, h3, h4, h5, h6, ?_⟩
              intro y hy1 hy2 e' he' hp ho
              by_cases hyn : y = n + 1
              · subst hyn
                rw [hl] at he'
                cases he'
                rw [hoff, hne]
              · exact h7 y hy1 (by omega) e' he' hp ho

/-- Witness for `branch_anchor_scan_characterization`: the scan of the
counterexample pcMap, started at `10 - 4 = 6`, anchors at pc 1 and every
mapped pc above it in range shares the JUMPI's offset. -/
theorem branch_anchor_scan_characterization_witness :
    scanAnchor c8PcMap (50, 60) 6 =
      Except.ok (some (1, ⟨"PUSH1", some (100, 105), some "p", none, none, none⟩)) ∧
    (∀ y : ℕ, (1 : ℤ) < (y : ℤ) → y ≤ 6 → ∀ e', lookupA c8PcMap (y : ℤ) = some e' →
      e'.path ≠ none → e'.op ≠ "JUMPDEST" → e'.offset = some (50, 60)) :=
  ⟨by decide,
    (branch_anchor_scan_characterization c8PcMap (50, 60) 6 1
      ⟨"PUSH1", some (100, 105), some "p", none, none, none⟩ (by decide)).2.2.2.2.2.2⟩

theorem mem_fmRecsOf_updateA {γ : Type} {fm : List (String × γ)} {f : String}
    {v : γ} {r : γ} (h : r ∈ fmRecsOf (updateA fm f v)) : r ∈ fmRecsOf fm ∨ r = v := by
  unfold fmRecsOf at *
  obtain ⟨p, hp, hpr⟩ := List.mem_map.1 h
  rcases mem_updateA hp with h1 | h1
  · exact Or.inl (List.mem_map.2 ⟨p, h1, hpr⟩)
  · exact Or.inr (by rw [← hpr, h1])

theorem mem_fmRecsOf_setdefaultA {γ : Type} {fm : List (String × γ)} {f : String}
    {d : γ} {r : γ} (h : r ∈ fmRecsOf (setdefaultA fm f d).2) :
    r ∈ fmRecsOf fm ∨ r = d := by
  unfold fmRecsOf at *
  obtain ⟨p, hp, hpr⟩ := List.mem_map.1 h
  rcases mem_setdefaultA hp with h1 | h1
  · exact Or.inl (List.mem_map.2 ⟨p, h1, hpr⟩)
  · exact Or.inr (by rw [← hpr, h1])

theorem setdefaultA_fst_cases {γ : Type} (fm : List (String × γ)) (f : String) (d : γ) :
    (setdefaultA fm f d).1 ∈ fmRecsOf fm ∨ (setdefaultA fm f d).1 = d := by
  rcases setdefaultA_fst fm f d with h | h
  · exact Or.inl (List.mem_map.2 ⟨_, h, rfl⟩)
  · exact Or.inr h

theorem mem_smRecsOf_updateA {γ : Type} {sm : List (String × List (String × γ))}
    {p : String} {fm : List (String × γ)} {r : γ}
    (h : r ∈ smRecsOf (updateA sm p fm)) : r ∈ smRecsOf sm ∨ r ∈ fmRecsOf fm := by
  unfold smRecsOf at *
  obtain ⟨q, hq, hqr⟩ := List.mem_flatMap.1 h
  rcases mem_updateA hq with h1 | h1
  · exact Or.inl (List.mem_flatMap.2 ⟨q, h1, hqr⟩)
  · cases h1; exact Or.inr hqr

theorem mem_recsOf_updateA {γ : Type}
    {ev : List (String × List (String × List (String × γ)))}
    {n : String} {sm : List (String × List (String × γ))} {r : γ}
    (h : r ∈ recsOf (updateA ev n sm)) : r ∈ recsOf ev ∨ r ∈ smRecsOf sm := by
  unfold recsOf at *
  obtain ⟨q, hq, hqr⟩ := List.mem_flatMap.1 h
  rcases mem_updateA hq with h1 | h1
  · exact Or.inl (List.mem_flatMap.2 ⟨q, h1, hqr⟩)
  · cases h1; exact Or.inr hqr

theorem smRecsOf_of_lookup {γ : Type}
    {ev : List (String × List (String × List (String × γ)))}
    {n : String} {sm : List (String × List (String × γ))} {r : γ}
    (hl : lookupA ev n = some sm) (h : r ∈ smRecsOf sm) : r ∈ recsOf ev := by
  unfold recsOf
  exact List.mem_flatMap.2 ⟨(n, sm), lookupA_mem hl, h⟩

theorem fmRecsOf_of_lookup {γ : Type} {sm : List (String × List (String × γ))}
    {p : String} {fm : List (String × γ)} {r : γ}
    (hl : lookupA sm p = some fm) (h : r ∈ fmRecsOf fm) : r ∈ smRecsOf sm := by
  unfold smRecsOf
  exact List.mem_flatMap.2 ⟨(p, fm), lookupA_mem hl, h⟩

theorem commit_pres {γ : Type} {P : γ → Prop}
    {B : List (String × List (String × List (String × γ)))}
    {name path fn : String} {covName : List (String × List (String × γ))}
    {fnmap0 : List (String × γ)} {d newRec : γ}
    (hB : ∀ r ∈ recsOf B, P r) (hcov : lookupA B name = some covName)
    (hfm : lookupA covName path = some fnmap0) (hd : P d) (hnew : P newRec) :
    ∀ r ∈ recsOf (updateA B name
      (updateA covName path (updateA (setdefaultA fnmap0 fn d).2 fn newRec))), P r := by
  intro r hr
  rcases mem_recsOf_updateA hr with h1 | h1
  · exact hB r h1
  rcases mem_smRecsOf_updateA h1 with h2 | h2
  · exact hB r (smRecsOf_of_lookup hcov h2)
  rcases mem_fmRecsOf_updateA h2 with h3 | h3
  · rcases mem_fmRecsOf_setdefaultA h3 with h4 | h4
    · exact hB r (smRecsOf_of_lookup hcov (fmRecsOf_of_lookup hfm h4))
    · rw [h4]; exact hd
  · rw [h3]; exact hnew

theorem commit_pres_nofn {γ : Type} {P : γ → Prop}
    {B : List (String × List (String × List (String × γ)))}
    {name path fn : String} {covName : List (String × List (String × γ))}
    {fnmap0 : List (String × γ)} {d : γ}
    (hB : ∀ r ∈ recsOf B, P r) (hcov : lookupA B name = some covName)
    (hfm : lookupA covName path = some fnmap0) (hd : P d) :
    ∀ r ∈ recsOf (updateA B name
      (updateA covName path (setdefaultA fnmap0 fn d).2)), P r := by
  intro r hr
  rcases mem_recsOf_updateA hr with h1 | h1
  · exact hB r h1
  rcases mem_smRecsOf_updateA h1 with h2 | h2
  · exact hB r (smRecsOf_of_lookup hcov h2)
  rcases mem_fmRecsOf_setdefaultA h2 with h3 | h3
  · exact hB r (smRecsOf_of_lookup hcov (fmRecsOf_of_lookup hfm h3))
  · rw [h3]; exact hd

theorem commit_pres_plain {γ : Type} {P : γ → Prop}
    {B : List (String × List (String × List (String × γ)))}
    {name path fn : String} {covName : List (String × List (String × γ))}
    {fnmap0 : List (String × γ)} {newRec : γ}
    (hB : ∀ r ∈ recsOf B, P r) (hcov : lookupA B name = some covName)
    (hfm : lookupA covName path = some fnmap0) (hnew : P newRec) :
    ∀ r ∈ recsOf (updateA B name
      (updateA covName path (updateA fnmap0 fn newRec))), P r := by
  intro r hr
  rcases mem_recsOf_updateA hr with h1 | h1
  · exact hB r h1
  rcases mem_smRecsOf_updateA h1 with h2 | h2
  · exact hB r (smRecsOf_of_lookup hcov h2)
  rcases mem_fmRecsOf_updateA h2 with h3 | h3
  · exact hB r (smRecsOf_of_lookup hcov (fmRecsOf_of_lookup hfm h3))
  · rw [h3]; exact hnew

theorem disj_union_right {a b : Finset ℕ} {k : ℕ} (h : a ∩ b = ∅) (hk : k ∉ a) :
    a ∩ (b ∪ {k}) = ∅ := by
  rw [Finset.eq_empty_iff_forall_not_mem] at h ⊢
  intro x hx
  simp only [Finset.mem_inter, Finset.mem_union, Finset.mem_singleton] at hx
  rcases hx.2 with h2 | h2
  · exact h x (Finset.mem_inter.2 ⟨hx.1, h2⟩)
  · exact hk (h2 ▸ hx.1)

theorem disj_union_left {a b : Finset ℕ} {k : ℕ} (h : a ∩ b = ∅) (hk : k ∉ b) :
    (a ∪ {k}) ∩ b = ∅ := by
  rw [Finset.eq_empty_iff_forall_not_mem] at h ⊢
  intro x hx
  simp only [Finset.mem_inter, Finset.mem_union, Finset.mem_singleton] at hx
  rcases hx.1 with h1 | h1
  · exact h x (Finset.mem_inter.2 ⟨h1, hx.2⟩)
  · exact hk (h1 ▸ hx.2)

theorem disj_erase_left {a b : Finset ℕ} {k : ℕ} (h : a ∩ b = ∅) :
    (a.erase k) ∩ b = ∅ := by
  rw [Finset.eq_empty_iff_forall_not_mem] at h ⊢
  intro x hx
  rw [Finset.mem_inter] at hx
  exact h x (Finset.mem_inter.2 ⟨Finset.mem_of_mem_erase hx.1, hx.2⟩)

theorem disj_erase_right {a b : Finset ℕ} {k : ℕ} (h : a ∩ b = ∅) :
    a ∩ (b.erase k) = ∅ := by
  rw [Finset.eq_empty_iff_forall_not_mem] at h ⊢
  intro x hx
  rw [Finset.mem_inter] at hx
  exact h x (Finset.mem_inter.2 ⟨hx.1, Finset.mem_of_mem_erase hx.2⟩)

theorem processStepCore_disj (st : AState) (txe : TxEvalT)
    (covMapName : List (String × List (String × List MapItem)))
    (t : TraceStep) (rest : List TraceStep) (st' : AState) (txe' : TxEvalT)
    (h : processStepCore st txe covMapName t rest = Except.ok (st', txe'))
    (hP : ∀ r ∈ recsOf st.covEval, r.ttrue ∩ r.tfalse = ∅) :
    ∀ r ∈ recsOf st'.covEval, r.ttrue ∩ r.tfalse = ∅ := by
  unfold processStepCore at h
  cases hpm : lookupA st.pcMapC t.contractName with
  | none => simp [hpm, keyGet, error_bind] at h
  | some pm =>
  simp only [hpm, keyGet, ok_bind] at h
  cases hpc : lookupA pm t.pc with
  | none => simp [hpc, keyGet, error_bind] at h
  | some e =>
  simp only [hpc, ok_bind] at h
  cases hfn : e.fn with
  | none => simp [hfn, keyGet, error_bind] at h
  | some fn =>
  simp only [hfn, ok_bind] at h
  by_cases hfe : fn = ""
  · rw [if_pos hfe] at h
    simp only [pure, Except.pure, Except.ok.injEq, Prod.mk.injEq] at h
    obtain ⟨hA, _⟩ := h
    rw [← hA]
    exact hP
  rw [if_neg hfe] at h
  cases hcov : lookupA st.covEval t.contractName with
  | none => simp [hcov, keyGet, error_bind] at h
  | some covName =>
  simp only [hcov, ok_bind] at h
  cases hfm0 : lookupA covName t.filename with
  | none => simp [hfm0, keyGet, error_bind] at h
  | some fnmap0 =>
  simp only [hfm0, ok_bind] at h
  cases htn : lookupA txe t.contractName with
  | none => simp [htn, keyGet, error_bind] at h
  | some txName =>
  simp only [htn, ok_bind] at h
  cases htf : lookupA txName t.filename with
  | none => simp [htf, keyGet, error_bind] at h
  | some tfm0 =>
  simp only [htf, ok_bind] at h
  have hr0 : (setdefaultA fnmap0 fn ⟨∅, ∅, ∅⟩).1.ttrue ∩
      (setdefaultA fnmap0 fn ⟨∅, ∅, ∅⟩).1.tfalse = ∅ := by
    rcases setdefaultA_fst_cases fnmap0 fn (⟨∅, ∅, ∅⟩ : FnRec) with hc | hc
    · exact hP _ (smRecsOf_of_lookup hcov (fmRecsOf_of_lookup hfm0 hc))
    · rw [hc]; simp
  by_cases hop : t.op ≠ "JUMPI"
  · rw [if_pos hop] at h
    cases hci : e.coverageIndex with
    | none =>
      simp only [hci, pure, Except.pure, Except.ok.injEq, Prod.mk.injEq] at h
      obtain ⟨hA, _⟩ := h
      rw [← hA]
      exact commit_pres_nofn hP hcov hfm0 rfl
    | some idx =>
      simp only [hci] at h
      cases hm1 : lookupA covMapName t.filename with
      | none => simp [hm1, keyGet, error_bind] at h
      | some fmaps =>
      simp only [hm1, ok_bind] at h
      cases hm2 : lookupA fmaps fn with
      | none => simp [hm2, keyGet, error_bind] at h
      | some maps =>
      simp only [hm2, ok_bind] at h
      cases hit : maps[idx]? with
      | none => simp [hit, keyGet, error_bind] at h
      | some item =>
      simp only [hit, ok_bind] at h
      by_cases hj : item.jump ≠ 0
      · rw [if_pos hj] at h
        simp only [pure, Except.pure, Except.ok.injEq, Prod.mk.injEq] at h
        obtain ⟨hA, _⟩ := h
        rw [← hA]
        exact commit_pres_nofn hP hcov hfm0 rfl
      · rw [if_neg hj] at h
        simp only [pure, Except.pure, Except.ok.injEq, Prod.mk.injEq] at h
        obtain ⟨hA, _⟩ := h
        rw [← hA]
        exact commit_pres hP hcov hfm0 rfl hr0
  · rw [if_neg hop] at h
    cases hm1 : lookupA covMapName t.filename with
    | none => simp [hm1, keyGet, error_bind] at h
    | some fmaps =>
    simp only [hm1, ok_bind] at h
    cases hm2 : lookupA fmaps fn with
    | none => simp [hm2, keyGet, error_bind] at h
    | some maps =>
    simp only [hm2, ok_bind] at h
    cases hk : List.findIdx? (fun it => decide (it.jump = t.pc)) maps with
    | none => simp [hk, error_bind] at h
    | some k =>
    simp only [hk, ok_bind] at h
    by_cases hg : k ∉ (setdefaultA tfm0 fn ∅).1 ∨ k ∈ (setdefaultA fnmap0 fn ⟨∅, ∅, ∅⟩).1.tx
    · rw [if_pos hg] at h
      simp only [pure, Except.pure, Except.ok.injEq, Prod.mk.injEq] at h
      obtain ⟨hA, _⟩ := h
      rw [← hA]
      exact commit_pres_nofn hP hcov hfm0 rfl
    · rw [if_neg hg] at h
      cases hnx : rest.head? with
      | none => simp [hnx, error_bind] at h
      | some nxt =>
      simp only [hnx, ok_bind] at h
      by_cases hdir : nxt.pc = t.pc + 1
      · rw [if_pos hdir] at h
        by_cases hmem : k ∉ (setdefaultA fnmap0 fn ⟨∅, ∅, ∅⟩).1.ttrue
        · rw [if_pos hmem] at h
          simp only [pure, Except.pure, Except.ok.injEq, Prod.mk.injEq] at h
          obtain ⟨hA, _⟩ := h
          rw [← hA]
          exact commit_pres hP hcov hfm0 rfl (disj_union_right hr0 hmem)
        · rw [if_neg hmem] at h
          simp only [pure, Except.pure, Except.ok.injEq, Prod.mk.injEq] at h
          obtain ⟨hA, _⟩ := h
          rw [← hA]
          exact commit_pres hP hcov hfm0 rfl (disj_erase_left hr0)
      · rw [if_neg hdir] at h
        by_cases hmem : k ∉ (setdefaultA fnmap0 fn ⟨∅, ∅, ∅⟩).1.tfalse
        · rw [if_pos hmem] at h
          simp only [pure, Except.pure, Except.ok.injEq, Prod.mk.injEq] at h
          obtain ⟨hA, _⟩ := h
          rw [← hA]
          exact commit_pres hP hcov hfm0 rfl (disj_union_left hr0 hmem)
        · rw [if_neg hmem] at h
          simp only [pure, Except.pure, Except.ok.injEq, Prod.mk.injEq] at h
          obtain ⟨hA, _⟩ := h
          rw [← hA]
          exact commit_pres hP hcov hfm0 rfl (disj_erase_right hr0)

theorem smRecsOf_map_empty {γ : Type} (l : List (String × List (String × List MapItem))) :
    smRecsOf (l.map (fun pr => (pr.1, ([] : List (String × γ))))) = [] := by
  induction l with
  | nil => rfl
  | cons a t ih => simp [smRecsOf, fmRecsOf, ih]

theorem mem_fmRecsOf_of_lookupA {γ : Type} {fm : List (String × γ)} {f : String} {r : γ}
    (h : lookupA fm f = some r) : r ∈ fmRecsOf fm :=
  List.mem_map.2 ⟨(f, r), lookupA_mem h, rfl⟩

theorem processStepRest_disj (st : AState) (txe : TxEvalT) (t : TraceStep)
    (rest : List TraceStep) (st' : AState) (txe' : TxEvalT)
    (h : processStepRest st txe t rest = Except.ok (st', txe'))
    (hP : ∀ r ∈ recsOf st.covEval, r.ttrue ∩ r.tfalse = ∅) :
    ∀ r ∈ recsOf st'.covEval, r.ttrue ∩ r.tfalse = ∅ := by
  unfold processStepRest at h
  cases hcm : lookupA st.covMapC t.contractName with
  | none => simp [hcm, keyGet, error_bind] at h
  | some covMapName =>
    simp only [hcm, keyGet, ok_bind] at h
    cases hx : lookupA txe t.contractName with
    | none =>
      simp only [hx] at h
      exact processStepCore_disj _ _ _ _ _ _ _ h hP
    | some tn =>
      simp only [hx] at h
      exact processStepCore_disj _ _ _ _ _ _ _ h hP

theorem processStep_disj (build : List (String × BuildRec)) (st : AState)
    (txe : TxEvalT) (t : TraceStep) (rest : List TraceStep) (st' : AState)
    (txe' : TxEvalT) (h : processStep build st txe t rest = Except.ok (st', txe'))
    (hP : ∀ r ∈ recsOf st.covEval, r.ttrue ∩ r.tfalse = ∅) :
    ∀ r ∈ recsOf st'.covEval, r.ttrue ∩ r.tfalse = ∅ := by
  unfold processStep at h
  by_cases h0 : t.contractName = "" ∨ t.filename = ""
  · rw [if_pos h0] at h
    simp only [pure, Except.pure, Except.ok.injEq, Prod.mk.injEq] at h
    obtain ⟨hA, _⟩ := h
    rw [← hA]
    exact hP
  · rw [if_neg h0] at h
    cases hc : lookupA st.pcMapC t.contractName with
    | some pm =>
      simp only [hc, ok_bind] at h
      exact processStepRest_disj _ _ _ _ _ _ h hP
    | none =>
      simp only [hc] at h
      cases hb : lookupA build t.contractName with
      | none => simp [hb, error_bind] at h
      | some b =>
        simp only [hb, ok_bind] at h
        refine processStepRest_disj _ _ _ _ _ _ h ?_
        intro r hr
        rcases mem_recsOf_updateA hr with h1 | h1
        · exact hP r h1
        · rw [smRecsOf_map_empty] at h1
          cases h1

theorem processTrace_disj (build : List (String × BuildRec)) :
    ∀ (trace : List TraceStep) (st : AState) (txe : TxEvalT) (st' : AState)
      (txe' : TxEvalT),
      processTrace build st txe trace = Except.ok (st', txe') →
      (∀ r ∈ recsOf st.covEval, r.ttrue ∩ r.tfalse = ∅) →
      ∀ r ∈ recsOf st'.covEval, r.ttrue ∩ r.tfalse = ∅ := by
  intro trace
  induction trace with
  | nil =>
    intro st txe st' txe' h hP
    unfold processTrace at h
    cases h
    exact hP
  | cons t rest ih =>
    intro st txe st' txe' h hP
    unfold processTrace at h
    obtain ⟨⟨st2, txe2⟩, hstep, hrest⟩ := except_bind_ok h
    exact ih st2 txe2 st' txe' hrest (processStep_disj _ _ _ _ _ _ _ hstep hP)

theorem processTx_disj (build : List (String × BuildRec)) (st : AState) (tx : Txn)
    (st' : AState) (h : processTx build st tx = Except.ok st')
    (hP : ∀ r ∈ recsOf st.covEval, r.ttrue ∩ r.tfalse = ∅) :
    ∀ r ∈ recsOf st'.covEval, r.ttrue ∩ r.tfalse = ∅ := by
  unfold processTx at h
  by_cases hr : !tx.receiver
  · rw [if_pos hr] at h
    simp only [pure, Except.pure, Except.ok.injEq] at h
    rw [← h]
    exact hP
  · rw [if_neg hr] at h
    obtain ⟨⟨st2, txe2⟩, hstep, hres⟩ := except_bind_ok h
    simp only [pure, Except.pure, Except.ok.injEq] at hres
    rw [← hres]
    exact processTrace_disj build tx.trace st [] st2 txe2 hstep hP

theorem mem_recsOf_map3 {γ δ : Type} {f : γ → δ}
    {ev : List (String × List (String × List (String × γ)))} {d : δ}
    (h : d ∈ recsOf (ev.map (fun pr =>
      (pr.1, pr.2.map (fun qr => (qr.1, qr.2.map (fun fr => (fr.1, f fr.2)))))))) :
    ∃ r ∈ recsOf ev, d = f r := by
  simp only [recsOf, smRecsOf, fmRecsOf, List.mem_flatMap, List.mem_map] at h ⊢
  aesop

theorem finalizeStep_pres {P : OutRec → Prop} (h0 : P ⟨some 0, none⟩)
    (h1 : P ⟨some 1, none⟩)
    (hmid : ∀ (r : OutRec) (s : Finset ℕ × Finset ℕ × Finset ℕ) (pct : ℚ),
      P r → r.sets = some s → pct ≠ 1 → P ⟨some pct, some s⟩)
    (out : CovOut) (tr : String × String × String × List MapItem) (out' : CovOut)
    (h : finalizeStep out tr = Except.ok out') (hP : ∀ r ∈ recsOf out, P r) :
    ∀ r ∈ recsOf out', P r := by
  unfold finalizeStep at h
  cases hcc : lookupA out tr.1 with
  | none => simp [hcc, keyGet, error_bind] at h
  | some covC =>
  simp only [hcc, keyGet, ok_bind] at h
  cases hfm : lookupA covC tr.2.1 with
  | none => simp [hfm, keyGet, error_bind] at h
  | some fnmap =>
  simp only [hfm, ok_bind] at h
  cases hr : lookupA fnmap tr.2.2.1 with
  | none =>
    simp only [hr, Except.ok.injEq] at h
    rw [← h]
    exact commit_pres_plain hP hcc hfm h0
  | some r =>
  simp only [hr] at h
  cases hs : r.sets with
  | none => simp [hs, keyGet, error_bind] at h
  | some s =>
  simp only [hs, ok_bind] at h
  cases hp : evalPctE tr.2.2.2 ⟨s.1, s.2.1, s.2.2⟩ with
  | error e => rw [hp] at h; simp [error_bind] at h
  | ok pct =>
  rw [hp] at h
  simp only [ok_bind] at h
  by_cases hpct : pct = 1
  · rw [if_pos hpct] at h
    simp only [Except.ok.injEq] at h
    rw [← h]
    exact commit_pres_plain hP hcc hfm h1
  · rw [if_neg hpct] at h
    simp only [Except.ok.injEq] at h
    rw [← h]
    refine commit_pres_plain hP hcc hfm ?_
    exact hmid r s pct
      (hP r (smRecsOf_of_lookup hcc (fmRecsOf_of_lookup hfm (mem_fmRecsOf_of_lookupA hr))))
      hs hpct

/-- Claim C9: in every evaluation returned by `analyze_coverage`, for
every function record that carries set data, the `true` and `false`
direction sets are disjoint — when a transaction takes a branch
direction whose opposite is already recorded, the index is moved into
the hit (`tx`) set instead, so no index ends up in both directional
sets. -/
theorem analyze_true_false_disjoint (build : List (String × BuildRec))
    (history : List Txn) (out : CovOut)
    (h : analyze_coverage build history = Except.ok out) :
    ∀ r ∈ outRecs out, ∀ s, r.sets = some s → s.2.1 ∩ s.2.2 = ∅ := by
  unfold analyze_coverage at h
  obtain ⟨stF, hfold, hfin⟩ := except_bind_ok h
  have hW : ∀ r ∈ recsOf stF.covEval, r.ttrue ∩ r.tfalse = ∅ :=
    foldlM_except_inv
      (P := fun st : AState => ∀ r ∈ recsOf st.covEval, r.ttrue ∩ r.tfalse = ∅)
      (fun s a s' hs hstep => processTx_disj build s a s' hstep hs) history _ stF
      (by intro r hr; simp [recsOf] at hr) hfold
  refine foldlM_except_inv
    (P := fun out : CovOut => ∀ r ∈ recsOf out, ∀ s, r.sets = some s → s.2.1 ∩ s.2.2 = ∅)
    ?_ (covTriples stF.covMapC) _ out ?_ hfin
  · intro s a s' hs hstep
    refine finalizeStep_pres ?_ ?_ ?_ s a s' hstep hs
    · intro s hsx; cases hsx
    · intro s hsx; cases hsx
    · intro r s2 pct hPr hsets hne s3 hs3
      injection hs3 with hs3
      rw [← hs3]
      exact hPr s2 hsets
  · intro r hr s hs
    obtain ⟨w, hw, hwf⟩ := mem_recsOf_map3
      (f := fun w : FnRec => (⟨none, some (w.tx, w.ttrue, w.tfalse)⟩ : OutRec)) hr
    rw [hwf] at hs
    injection hs with hs
    rw [← hs]
    exact hW w hw

/-- Witness for `analyze_true_false_disjoint`: the two-transaction branch
scenario, whose function ends fully covered. -/
theorem analyze_true_false_disjoint_witness :
    analyze_coverage c9Build c9History =
      Except.ok [("C", [("s.sol", [("f", ⟨some 1, none⟩)])])] ∧
    (∀ r ∈ outRecs [("C", [("s.sol", [("f", (⟨some 1, none⟩ : OutRec))])])],
      ∀ s, r.sets = some s → s.2.1 ∩ s.2.2 = ∅) :=
  ⟨by decide, analyze_true_false_disjoint c9Build c9History _ (by decide)⟩

theorem foldlM_except_inv_mem {σ α : Type} {P : σ → Prop}
    {step : σ → α → Except String σ} :
    ∀ (l : List α), (∀ s a s', a ∈ l → P s → step s a = Except.ok s' → P s') →
      ∀ (s s' : σ), P s → l.foldlM step s = Except.ok s' → P s' := by
  intro l
  induction l with
  | nil => intro _ s s' hp h; simp only [List.foldlM] at h; cases h; exact hp
  | cons a t ih =>
    intro hs s s' hp h
    simp only [List.foldlM] at h
    obtain ⟨w, hw, hrest⟩ := except_bind_ok h
    exact ih (fun s a s' ha => hs s a s' (List.mem_cons_of_mem _ ha)) w s'
      (hs s a w (List.mem_cons_self _ _) hp hw) hrest

theorem mergeFnRec_bare {f c r : OutRec} (hf : bareAtOne f)
    (h : mergeFnRec f c = Except.ok r) : bareAtOne r := by
  unfold mergeFnRec at h
  cases hcp : c.pct with
  | none => simp [hcp, keyGet, error_bind] at h
  | some cp =>
  simp only [hcp, keyGet, ok_bind] at h
  by_cases hg : cp = 0 ∨ f = c
  · rw [if_pos hg] at h
    simp only [pure, Except.pure, Except.ok.injEq] at h
    rw [← h]
    exact hf
  · rw [if_neg hg] at h
    cases hfp : f.pct with
    | none => simp [hfp, keyGet, error_bind] at h
    | some fp =>
    simp only [hfp, ok_bind] at h
    by_cases h1 : fp = 1 ∨ cp = 1
    · rw [if_pos h1] at h
      simp only [pure, Except.pure, Except.ok.injEq] at h
      rw [← h]
      intro _
      rfl
    · rw [if_neg h1] at h
      cases hsf : f.sets with
      | none => simp [hsf, keyGet, error_bind] at h
      | some sf =>
      simp only [hsf, ok_bind] at h
      cases hsc : c.sets with
      | none => simp [hsc, keyGet, error_bind] at h
      | some sc =>
      simp only [hsc, ok_bind, pure, Except.pure, Except.ok.injEq] at h
      rw [← h]
      intro hx
      simp only [hfp] at hx
      injection hx with hx
      exact absurd (Or.inl hx) h1

theorem mem_smRecsOf_of_triple {data : List (String × List (String × OutRec))}
    {tr : String × String × OutRec} (h : tr ∈ srcFnTriples data) :
    tr.2.2 ∈ smRecsOf data := by
  unfold srcFnTriples at h
  obtain ⟨pr, hpr, hx⟩ := List.mem_flatMap.1 h
  obtain ⟨fr, hfr, hfx⟩ := List.mem_map.1 hx
  refine List.mem_flatMap.2 ⟨pr, hpr, ?_⟩
  refine List.mem_map.2 ⟨fr, hfr, ?_⟩
  rw [← hfx]

theorem mergeContractInto_bare {m : CovOut} {name : String}
    {data : List (String × List (String × OutRec))} {m' : CovOut}
    (h : mergeContractInto m name data = Except.ok m')
    (hm : ∀ r ∈ recsOf m, bareAtOne r) (hdata : ∀ r ∈ smRecsOf data, bareAtOne r) :
    ∀ r ∈ recsOf m', bareAtOne r := by
  unfold mergeContractInto at h
  cases hl : lookupA m name with
  | none =>
    simp only [hl, Except.ok.injEq] at h
    rw [← h]
    intro r hr
    rcases mem_recsOf_updateA hr with h1 | h1
    · exact hm r h1
    · exact hdata r h1
  | some mdata0 =>
    simp only [hl] at h
    refine foldlM_except_inv_mem (P := fun m : CovOut => ∀ r ∈ recsOf m, bareAtOne r)
      (srcFnTriples data) ?_ m m' hm h
    intro s tr s' htr hs hstep
    obtain ⟨mdata, hmd, hstep⟩ := except_bind_ok hstep
    obtain ⟨fnmap, hfm, hstep⟩ := except_bind_ok hstep
    obtain ⟨f, hf, hstep⟩ := except_bind_ok hstep
    obtain ⟨r, hmr, hstep⟩ := except_bind_ok hstep
    simp only [Except.ok.injEq] at hstep
    rw [← hstep]
    cases hmd2 : lookupA s name with
    | none => rw [hmd2] at hmd; cases hmd
    | some mdataX =>
      rw [hmd2] at hmd
      simp only [keyGet, Except.ok.injEq] at hmd
      subst hmd
      cases hfm2 : lookupA mdataX tr.1 with
      | none => rw [hfm2] at hfm; cases hfm
      | some fnmapX =>
        rw [hfm2] at hfm
        simp only [keyGet, Except.ok.injEq] at hfm
        subst hfm
        cases hf2 : lookupA fnmapX tr.2.1 with
        | none => rw [hf2] at hf; cases hf
        | some fX =>
          rw [hf2] at hf
          simp only [keyGet, Except.ok.injEq] at hf
          subst hf
          refine commit_pres_plain hs hmd2 hfm2 ?_
          exact mergeFnRec_bare
            (hs _ (smRecsOf_of_lookup hmd2 (fmRecsOf_of_lookup hfm2
              (mem_fmRecsOf_of_lookupA hf2)))) hmr

/-- Claim C10: a fully covered function never carries set data. First,
every record returned by `analyze_coverage` with `pct = 1` is exactly
the bare `{'pct': 1}` (its percentage loop replaces the record). Second,
when the per-function merge step sees a fully covered side, it returns
exactly the bare `{'pct': 1}` record. Third, `merge_coverage` preserves
the property: if every input record with `pct = 1` is bare, so is every
output record with `pct = 1`. -/
theorem full_coverage_record_bare :
    (∀ (build : List (String × BuildRec)) (history : List Txn) (out : CovOut),
      analyze_coverage build history = Except.ok out →
      ∀ r ∈ outRecs out, r.pct = some 1 → r.sets = none) ∧
    (∀ (f c : OutRec) (pf cp : ℚ), bareAtOne f →
      f.pct = some pf → c.pct = some cp → (pf = 1 ∨ cp = 1) →
      mergeFnRec f c = Except.ok ⟨some 1, none⟩) ∧
    (∀ (evals : List CovOut) (out : CovOut), merge_coverage evals = Except.ok out →
      (∀ r ∈ evalsRecs evals, bareAtOne r) → ∀ r ∈ outRecs out, bareAtOne r) := by
  refine ⟨?_, ?_, ?_⟩
  · intro build history out h
    unfold analyze_coverage at h
    obtain ⟨stF, hfold, hfin⟩ := except_bind_ok h
    refine foldlM_except_inv
      (P := fun out : CovOut => ∀ r ∈ recsOf out, r.pct = some 1 → r.sets = none)
      ?_ (covTriples stF.covMapC) _ out ?_ hfin
    · intro s a s' hs hstep
      refine finalizeStep_pres ?_ ?_ ?_ s a s' hstep hs
      · intro hx; injection hx with hx; exact absurd hx (by norm_num)
      · intro _; rfl
      · intro r s2 pct _ _ hne hx
        injection hx with hx
        exact absurd hx hne
    · intro r hr hp
      obtain ⟨w, hw, hwf⟩ := mem_recsOf_map3
        (f := fun w : FnRec => (⟨none, some (w.tx, w.ttrue, w.tfalse)⟩ : OutRec)) hr
      rw [hwf] at hp
      cases hp
  · intro f c pf cp hfB hfp hcp hor
    unfold mergeFnRec
    rw [hcp]
    simp only [keyGet, ok_bind]
    by_cases hg : cp = 0 ∨ f = c
    · rw [if_pos hg]
      have hf1 : f.pct = some 1 := by
        rcases hg with h0 | hfc
        · rcases hor with h | h
          · rw [hfp, h]
          · exact absurd (h0.symm.trans h) (by norm_num)
        · rcases hor with h | h
          · rw [hfp, h]
          · rw [hfc, hcp, h]
      have hff : f = ⟨some 1, none⟩ := by
        have hs := hfB hf1
        cases f
        simp_all
      rw [hff]
      rfl
    · rw [if_neg hg]
      rw [hfp]
      simp only [keyGet, ok_bind]
      rw [if_pos hor]
      rfl
  · intro evals out h hwf
    unfold merge_coverage at h
    refine foldlM_except_inv_mem
      (P := fun m : CovOut => ∀ r ∈ recsOf m, bareAtOne r) evals ?_ [] out
      (by intro r hr; simp [recsOf] at hr) h
    intro s ev s' hev hs hstep
    refine foldlM_except_inv_mem
      (P := fun m : CovOut => ∀ r ∈ recsOf m, bareAtOne r) ev ?_ s s' hs hstep
    intro m pr m' hpr hm hstep2
    refine mergeContractInto_bare hstep2 hm ?_
    intro r hr
    refine hwf r ?_
    unfold evalsRecs outRecs
    exact List.mem_flatMap.2 ⟨ev, hev, List.mem_flatMap.2 ⟨pr, hpr, hr⟩⟩

/-- Witness for `full_coverage_record_bare`: the branch scenario's fully
covered function, a record-level promotion, and a one-file merge. -/
theorem full_coverage_record_bare_witness :
    (analyze_coverage c9Build c9History =
        Except.ok [("C", [("s.sol", [("f", ⟨some 1, none⟩)])])] ∧
      (∀ r ∈ outRecs [("C", [("s.sol", [("f", (⟨some 1, none⟩ : OutRec))])])],
        r.pct = some 1 → r.sets = none)) ∧
    mergeFnRec ⟨some 1, none⟩ ⟨some (mkRat 1 2), some ({0}, ∅, ∅)⟩ =
      Except.ok ⟨some 1, none⟩ ∧
    (merge_coverage [mEvalA] = Except.ok mEvalA ∧
      (∀ r ∈ outRecs mEvalA, bareAtOne r)) :=
  ⟨⟨by decide, full_coverage_record_bare.1 c9Build c9History _ (by decide)⟩,
    full_coverage_record_bare.2.1 ⟨some 1, none⟩ ⟨some (mkRat 1 2), some ({0}, ∅, ∅)⟩
      1 (mkRat 1 2) (by intro _; rfl) rfl rfl (Or.inl rfl),
    by decide,
    full_coverage_record_bare.2.2 [mEvalA] mEvalA (by decide)
      (by
        intro r hr
        simp [evalsRecs, outRecs, recsOf, smRecsOf, fmRecsOf, mEvalA] at hr
        subst hr
        intro hx
        injection hx with hx
        exact absurd hx (by decide))⟩

theorem mergeSets_def (a b : Finset ℕ × Finset ℕ × Finset ℕ) :
    mergeSets a b =
      (a.1 ∪ b.1 ∪ ((a.2.1 ∪ b.2.1) ∩ (a.2.2 ∪ b.2.2)),
        (a.2.1 ∪ b.2.1) \ (a.1 ∪ b.1 ∪ ((a.2.1 ∪ b.2.1) ∩ (a.2.2 ∪ b.2.2))),
        (a.2.2 ∪ b.2.2) \ (a.1 ∪ b.1 ∪ ((a.2.1 ∪ b.2.1) ∩ (a.2.2 ∪ b.2.2)))) := rfl

set_option maxHeartbeats 1000000 in
theorem mergeSets_comm (a b : Finset ℕ × Finset ℕ × Finset ℕ) :
    mergeSets a b = mergeSets b a := by
  rw [mergeSets_def, mergeSets_def]
  simp only [Prod.mk.injEq]
  refine ⟨?_, ?_, ?_⟩ <;>
    (ext x; simp only [Finset.mem_union, Finset.mem_inter, Finset.mem_sdiff]) <;> tauto

set_option maxHeartbeats 4000000 in
theorem mergeSets_assoc (a b c : Finset ℕ × Finset ℕ × Finset ℕ) :
    mergeSets (mergeSets a b) c = mergeSets a (mergeSets b c) := by
  rw [mergeSets_def a b, mergeSets_def b c, mergeSets_def, mergeSets_def]
  simp only [Prod.mk.injEq]
  refine ⟨?_, ?_, ?_⟩ <;>
    (ext x; simp only [Finset.mem_union, Finset.mem_inter, Finset.mem_sdiff]) <;> tauto

theorem mergeSets_self {s : Finset ℕ × Finset ℕ × Finset ℕ}
    (h1 : s.1 ∩ s.2.1 = ∅) (h2 : s.1 ∩ s.2.2 = ∅) (h3 : s.2.1 ∩ s.2.2 = ∅) :
    mergeSets s s = s := by
  rw [mergeSets_def]
  simp only [Finset.union_self, h3, Finset.union_empty]
  have d1 : Disjoint s.2.1 s.1 :=
    Finset.disjoint_left.2 (fun {a} ha hb =>
      Finset.eq_empty_iff_forall_not_mem.1 h1 a (Finset.mem_inter.2 ⟨hb, ha⟩))
  have d2 : Disjoint s.2.2 s.1 :=
    Finset.disjoint_left.2 (fun {a} ha hb =>
      Finset.eq_empty_iff_forall_not_mem.1 h2 a (Finset.mem_inter.2 ⟨hb, ha⟩))
  rw [Finset.sdiff_eq_self_of_disjoint d1, Finset.sdiff_eq_self_of_disjoint d2]

theorem mergeSets_disj (s1 s2 : Finset ℕ × Finset ℕ × Finset ℕ) :
    (mergeSets s1 s2).1 ∩ (mergeSets s1 s2).2.1 = ∅ ∧
    (mergeSets s1 s2).1 ∩ (mergeSets s1 s2).2.2 = ∅ ∧
    (mergeSets s1 s2).2.1 ∩ (mergeSets s1 s2).2.2 = ∅ := by
  rw [mergeSets_def]
  refine ⟨Finset.inter_sdiff_self _ _, Finset.inter_sdiff_self _ _, ?_⟩
  rw [Finset.eq_empty_iff_forall_not_mem]
  intro a ha
  rw [Finset.mem_inter, Finset.mem_sdiff, Finset.mem_sdiff] at ha
  exact ha.1.2 (Finset.mem_union.2 (Or.inr
    (Finset.mem_inter.2 ⟨ha.1.1, ha.2.1⟩)))

theorem mergeFnRec_master (f c : OutRec) (hf : recWF1 f) (hc : recWF1 c) :
    ∃ r, mergeFnRec f c = Except.ok r ∧ recWF1 r ∧
      ((f.pct = some 1 ∨ c.pct = some 1) → r = ⟨some 1, none⟩) ∧
      (f.pct ≠ some 1 → c.pct ≠ some 1 →
        recContents r = mergeSets (recContents f) (recContents c) ∧ r.pct ≠ some 1) := by
  rcases hf with rfl | ⟨pf, sf, hfp, hf0, hf1, hfs, hfd1, hfd2, hfd3⟩
  · refine ⟨⟨some 1, none⟩, ?_, Or.inl rfl, fun _ => rfl, fun hx _ => absurd rfl hx⟩
    rcases hc with rfl | ⟨pc', sc, hcp, hc0, hc1, hcs, _, _, _⟩
    · unfold mergeFnRec
      simp only [keyGet, ok_bind]
      rw [if_pos (Or.inr (by trivial))]
      rfl
    · unfold mergeFnRec
      rw [hcp]
      simp only [keyGet, ok_bind]
      have hne : (⟨some 1, none⟩ : OutRec) ≠ c := by
        intro hh
        rw [← hh] at hcs
        cases hcs
      rw [if_neg (by push_neg; exact ⟨hc0, hne⟩)]
      rw [if_pos (Or.inl (by trivial))]
      rfl
  · rcases hc with rfl | ⟨pc', sc, hcp, hc0, hc1, hcs, hcd1, hcd2, hcd3⟩
    · refine ⟨⟨some 1, none⟩, ?_, Or.inl rfl, fun _ => rfl, ?_⟩
      · unfold mergeFnRec
        simp only [keyGet, ok_bind]
        have hne : f ≠ (⟨some 1, none⟩ : OutRec) := by
          intro hh
          rw [hh] at hfs
          cases hfs
        rw [if_neg (by push_neg; exact ⟨by norm_num, hne⟩)]
        rw [hfp]
        simp only [keyGet, ok_bind]
        rw [if_pos (Or.inr (by trivial))]
        rfl
      · intro _ hx
        exact absurd rfl hx
    · by_cases hfc : f = c
      · refine ⟨f, ?_, ?_, ?_, ?_⟩
        · unfold mergeFnRec
          rw [hcp]
          simp only [keyGet, ok_bind]
          rw [if_pos (Or.inr hfc)]
          rfl
        · exact Or.inr ⟨pf, sf, hfp, hf0, hf1, hfs, hfd1, hfd2, hfd3⟩
        · intro hx
          rcases hx with hx | hx
          · rw [hfp] at hx
            injection hx with hx
            exact absurd hx hf1
          · rw [hcp] at hx
            injection hx with hx
            exact absurd hx hc1
        · intro _ _
          have hsc2 : sc = sf := by
            rw [← hfc] at hcs
            rw [hfs] at hcs
            injection hcs with hcs
            rw [hcs]
          constructor
          · have hcf : recContents f = sf := by rw [recContents, hfs]; rfl
            rw [hcf, ← hfc, hcf]
            exact (mergeSets_self hfd1 hfd2 hfd3).symm
          · rw [hfp]
            intro hx
            injection hx with hx
            exact absurd hx hf1
      · refine ⟨⟨f.pct, some (mergeSets sf sc)⟩, ?_, ?_, ?_, ?_⟩
        · unfold mergeFnRec
          rw [hcp]
          simp only [keyGet, ok_bind]
          rw [if_neg (by push_neg; exact ⟨hc0, hfc⟩)]
          rw [hfp]
          simp only [keyGet, ok_bind]
          rw [if_neg (by push_neg; exact ⟨hf1, hc1⟩)]
          rw [hfs, hcs]
          simp only [keyGet, ok_bind]
          rw [mergeSets_def]
          rfl
        · refine Or.inr ⟨pf, mergeSets sf sc, by rw [hfp], hf0, hf1, rfl, ?_, ?_, ?_⟩
          · exact (mergeSets_disj sf sc).1
          · exact (mergeSets_disj sf sc).2.1
          · exact (mergeSets_disj sf sc).2.2
        · intro hx
          rcases hx with hx | hx
          · rw [hfp] at hx
            injection hx with hx
            exact absurd hx hf1
          · rw [hcp] at hx
            injection hx with hx
            exact absurd hx hc1
        · intro _ _
          constructor
          · rw [recContents, recContents, recContents, hfs, hcs]
            rfl
          · rw [hfp]
            intro hx
            injection hx with hx
            exact absurd hx hf1

/-- Claim C1, amended: on records of the shape `analyze_coverage`
produces — the bare `{'pct': 1}` or a carried pct outside `{0, 1}` with
pairwise-disjoint sets — the per-function merge of `merge_coverage` is
commutative and associative on the contents of the `tx`/`true`/`false`
sets (with full-coverage promotion respected); it is not commutative on
the final `pct` value itself, which `merge_not_commutative_cex` shows is
carried from whichever side was merged first. -/
theorem merge_record_comm_assoc_on_set_contents (f c g : OutRec)
    (hf : recWF1 f) (hc : recWF1 c) (hg : recWF1 g) :
    (mergeFnRec f c).map recContents = (mergeFnRec c f).map recContents ∧
    ((mergeFnRec f c >>= fun r => mergeFnRec r g).map recContents =
      ((mergeFnRec c g >>= fun r => mergeFnRec f r).map recContents)) := by
  obtain ⟨r1, e1, w1, p1, q1⟩ := mergeFnRec_master f c hf hc
  obtain ⟨r1', e1', w1', p1', q1'⟩ := mergeFnRec_master c f hc hf
  obtain ⟨r3, e3, w3, p3, q3⟩ := mergeFnRec_master c g hc hg
  obtain ⟨r2, e2, w2, p2, q2⟩ := mergeFnRec_master r1 g w1 hg
  obtain ⟨r4, e4, w4, p4, q4⟩ := mergeFnRec_master f r3 hf w3
  constructor
  · rw [e1, e1']
    by_cases h1 : f.pct = some 1 ∨ c.pct = some 1
    · rw [p1 h1, p1' h1.symm]
    · push_neg at h1
      have hA := q1 h1.1 h1.2
      have hB := q1' h1.2 h1.1
      simp only [Except.map]
      rw [hA.1, hB.1, mergeSets_comm]
  · rw [e1, e3, ok_bind, ok_bind, e2, e4]
    simp only [Except.map]
    by_cases h1 : f.pct = some 1 ∨ c.pct = some 1 ∨ g.pct = some 1
    · have hl : r2 = ⟨some 1, none⟩ := by
        rcases h1 with h | h | h
        · exact p2 (Or.inl (show r1.pct = some 1 by rw [p1 (Or.inl h)]))
        · exact p2 (Or.inl (show r1.pct = some 1 by rw [p1 (Or.inr h)]))
        · exact p2 (Or.inr h)
      have hr : r4 = ⟨some 1, none⟩ := by
        rcases h1 with h | h | h
        · exact p4 (Or.inl h)
        · exact p4 (Or.inr (show r3.pct = some 1 by rw [p3 (Or.inl h)]))
        · exact p4 (Or.inr (show r3.pct = some 1 by rw [p3 (Or.inr h)]))
      rw [hl, hr]
    · push_neg at h1
      obtain ⟨hfn, hcn, hgn⟩ := h1
      have hA := q1 hfn hcn
      have hB := q2 hA.2 hgn
      have hC := q3 hcn hgn
      have hD := q4 hfn hC.2
      rw [hB.1, hA.1, hD.1, hC.1, mergeSets_assoc]

theorem merge_record_comm_assoc_on_set_contents_witness :
    recWF1 mRecA ∧ recWF1 mRecB ∧ recWF1 mRecG ∧
    ((mergeFnRec mRecA mRecB).map recContents =
        (mergeFnRec mRecB mRecA).map recContents ∧
      ((mergeFnRec mRecA mRecB >>= fun r => mergeFnRec r mRecG).map recContents =
        ((mergeFnRec mRecB mRecG >>= fun r => mergeFnRec mRecA r).map recContents))) := by
  have wfA : recWF1 mRecA :=
    Or.inr ⟨mkRat 1 2, ({0}, ∅, ∅), rfl, by decide, by decide, rfl,
      Finset.inter_empty _, Finset.inter_empty _, Finset.inter_empty _⟩
  have wfB : recWF1 mRecB :=
    Or.inr ⟨mkRat 1 4, ({1}, ∅, ∅), rfl, by decide, by decide, rfl,
      Finset.inter_empty _, Finset.inter_empty _, Finset.inter_empty _⟩
  have wfG : recWF1 mRecG :=
    Or.inr ⟨mkRat 3 4, ({2}, ∅, ∅), rfl, by decide, by decide, rfl,
      Finset.inter_empty _, Finset.inter_empty _, Finset.inter_empty _⟩
  exact ⟨wfA, wfB, wfG, merge_record_comm_assoc_on_set_contents mRecA mRecB mRecG wfA wfB wfG⟩

/-- Claim C7, amended: the union of key sets happens at the contract
level only. A contract absent from the accumulated evaluation is copied
wholesale and is then present under its key; but within a contract
present on both sides, an incoming `(source, fn_name)` pair the
accumulated side lacks makes the merge die with the uncaught `KeyError`
of `merged_eval[contract_name][source][fn_name]`; a function present
only on the accumulated side is kept unchanged. -/
theorem merge_key_union_contract_level
    (merged : CovOut) (name s fname s0 f0 : String)
    (data rest mdata : List (String × List (String × OutRec)))
    (c : OutRec) (M : CovOut) :
    (lookupA merged name = none →
      mergeContractInto merged name data = Except.ok (updateA merged name data) ∧
      lookupA (updateA merged name data) name = some data) ∧
    (lookupA merged name = some mdata →
      (lookupA mdata s).bind (fun fm => lookupA fm fname) = none →
      mergeContractInto merged name ((s, [(fname, c)]) :: rest) =
        Except.error "KeyError") ∧
    (mergeContractInto merged name data = Except.ok M →
      (∀ r, (s0, f0, r) ∉ srcFnTriples data) →
      lookup3 M name s0 f0 = lookup3 merged name s0 f0) := by
  refine ⟨?_, ?_, ?_⟩
  · intro h
    refine ⟨?_, lookupA_updateA_self merged name data⟩
    unfold mergeContractInto
    rw [h]
  · intro h hnone
    unfold mergeContractInto
    rw [h]
    have htr : srcFnTriples ((s, [(fname, c)]) :: rest) =
        (s, fname, c) :: srcFnTriples rest := by
      simp [srcFnTriples]
    rw [htr]
    simp only [List.foldlM]
    cases hms : lookupA mdata s with
    | none =>
      simp only [h, keyGet, ok_bind, hms, error_bind]
    | some fm =>
      have hf0 : lookupA fm fname = none := by
        rw [hms] at hnone
        simpa using hnone
      simp only [h, keyGet, ok_bind, hms, hf0, error_bind]
  · intro hM hnot
    unfold mergeContractInto at hM
    cases hm : lookupA merged name with
    | none =>
      rw [hm] at hM
      simp only [Except.ok.injEq] at hM
      rw [← hM]
      unfold lookup3
      rw [lookupA_updateA_self, hm]
      simp only [Option.bind]
      cases hds : lookupA data s0 with
      | none => rfl
      | some fm =>
        cases hff : lookupA fm f0 with
        | none => simp [hff]
        | some r =>
          exfalso
          apply hnot r
          unfold srcFnTriples
          refine List.mem_flatMap.2 ⟨(s0, fm), lookupA_mem hds, ?_⟩
          exact List.mem_map.2 ⟨(f0, r), lookupA_mem hff, rfl⟩
    | some md =>
      rw [hm] at hM
      refine foldlM_except_inv_mem
        (P := fun m : CovOut => lookup3 m name s0 f0 = lookup3 merged name s0 f0)
        (srcFnTriples data) ?_ merged M rfl hM
      intro m tr m' htr hP hstep
      obtain ⟨mdata1, hmd, hstep⟩ := except_bind_ok hstep
      obtain ⟨fnmap, hfm, hstep⟩ := except_bind_ok hstep
      obtain ⟨fv, hfv, hstep⟩ := except_bind_ok hstep
      obtain ⟨r, hmr, hstep⟩ := except_bind_ok hstep
      simp only [Except.ok.injEq] at hstep
      rw [← hstep, ← hP]
      cases hmd2 : lookupA m name with
      | none => rw [hmd2] at hmd; cases hmd
      | some mdataX =>
        rw [hmd2] at hmd
        simp only [keyGet, Except.ok.injEq] at hmd
        subst hmd
        cases hfm2 : lookupA mdataX tr.1 with
        | none => rw [hfm2] at hfm; cases hfm
        | some fnmapX =>
          rw [hfm2] at hfm
          simp only [keyGet, Except.ok.injEq] at hfm
          subst hfm
          unfold lookup3
          rw [lookupA_updateA_self, hmd2]
          simp only [Option.bind]
          by_cases hs1 : tr.1 = s0
          · have hne : tr.2.1 ≠ f0 := by
              intro he
              apply hnot tr.2.2
              have hteq : (s0, f0, tr.2.2) = tr := by rw [← hs1, ← he]
              rw [hteq]
              exact htr
            rw [hs1] at hfm2
            rw [hs1, lookupA_updateA_self, hfm2]
            exact lookupA_updateA_ne fnmapX tr.2.1 r f0 (Ne.symm hne)
          · rw [lookupA_updateA_ne mdataX tr.1 _ s0 (fun hh => hs1 hh.symm)]

theorem merge_key_union_contract_level_witness :
    (lookupA ([] : CovOut) "C" = none ∧
      mergeContractInto [] "C" c7IncOne = Except.ok (updateA [] "C" c7IncOne) ∧
      lookupA (updateA ([] : CovOut) "C" c7IncOne) "C" = some c7IncOne) ∧
    (lookupA c7EvalA "C" = some [("s", [("a", (⟨some 1, none⟩ : OutRec))])] ∧
      (lookupA [("s", [("a", (⟨some 1, none⟩ : OutRec))])] "s").bind
        (fun fm => lookupA fm "b") = none ∧
      mergeContractInto c7EvalA "C" [("s", [("b", (⟨some 1, none⟩ : OutRec))])] =
        Except.error "KeyError") ∧
    (mergeContractInto c7Merged "C" c7IncOne = Except.ok c7MergedOne ∧
      (∀ r, ("s", "x", r) ∉ srcFnTriples c7IncOne) ∧
      lookup3 c7MergedOne "C" "s" "x" = lookup3 c7Merged "C" "s" "x") := by
  have hnot : ∀ r, ("s", "x", r) ∉ srcFnTriples c7IncOne := by
    intro r hr
    simp only [c7IncOne, srcFnTriples, List.flatMap_cons, List.flatMap_nil, List.map_cons,
      List.map_nil, List.append_nil, List.mem_singleton, Prod.mk.injEq] at hr
    exact absurd hr.2.1 (by decide)
  have hc : mergeContractInto c7Merged "C" c7IncOne = Except.ok c7MergedOne := rfl
  refine ⟨⟨rfl, (merge_key_union_contract_level [] "C" "s" "b" "s" "x"
      c7IncOne [] [] ⟨some 1, none⟩ []).1 rfl⟩, ⟨rfl, rfl,
    (merge_key_union_contract_level c7EvalA "C" "s" "b" "s" "x"
      [] [] [("s", [("a", ⟨some 1, none⟩)])] ⟨some 1, none⟩ []).2.1 rfl rfl⟩,
    hc, hnot,
    (merge_key_union_contract_level c7Merged "C" "s" "x" "s" "x"
      c7IncOne [] [] ⟨some 1, none⟩ c7MergedOne).2.2 hc hnot⟩
